import Mathlib

/-!
# happybot: dispatcher, routing patterns and enrichment handlers

A shallow embedding of `playground.go` and `slack.go`.

Go strings are modelled by their sequence of code points (`List Char`); the
few places where the program indexes bytes (`lang[:len(lang)-5]`,
`article[10:]`) go through the UTF-8 width of every code point.

Library code the program calls is embedded as follows.
* `regexp`: a regular-expression syntax tree and a backtracking matcher that
  lists every way the expression can match at a position, in priority order;
  `MustCompile` takes the first one (leftmost-first), `MustCompilePOSIX` the
  longest one (leftmost-longest).
* `strings.ToLower`: the ASCII rule is explicit, the Unicode case table for
  code points above 0x7F is a field of `World`.
* `net/http`, `encoding/json`: answers of the outside world, fields of `World`.
-/

namespace HappyBot

/-- Go `string`, as the sequence of its code points. -/
abbrev Str := List Char

/-! ## Strings -/

/-- Go `len(s)`: the number of bytes of the UTF-8 encoding. -/
def byteLen (s : Str) : Nat := (s.map Char.utf8Size).sum

/-- Go `len([]rune(s))`: the number of code points. -/
def runeLen (s : Str) : Nat := s.length

/-- Go `s[n:]` for `n ≤ len(s)`: drops `n` bytes.  A cut inside a code point
leaves stray continuation bytes, which read back as U+FFFD each. -/
def dropBytes : Nat → Str → Str
  | 0, s => s
  | _ + 1, [] => []
  | n + 1, c :: cs =>
    if c.utf8Size ≤ n + 1 then dropBytes (n + 1 - c.utf8Size) cs
    else List.replicate (c.utf8Size - (n + 1)) (Char.ofNat 0xFFFD) ++ cs

/-- Go `s[:n]` for `n ≤ len(s)`: keeps `n` bytes.  A cut inside a code point
leaves a truncated sequence, which reads back as U+FFFD for each byte. -/
def takeBytes : Nat → Str → Str
  | 0, _ => []
  | _ + 1, [] => []
  | n + 1, c :: cs =>
    if c.utf8Size ≤ n + 1 then c :: takeBytes (n + 1 - c.utf8Size) cs
    else List.replicate (n + 1) (Char.ofNat 0xFFFD)

/-- Go `s[n:]`: `none` is the run-time panic "slice bounds out of range". -/
def sliceFrom (s : Str) (n : Int) : Option Str :=
  if 0 ≤ n ∧ n ≤ (byteLen s : Int) then some (dropBytes n.toNat s) else none

/-- Go `s[:n]`: `none` is the run-time panic "slice bounds out of range". -/
def sliceTo (s : Str) (n : Int) : Option Str :=
  if 0 ≤ n ∧ n ≤ (byteLen s : Int) then some (takeBytes n.toNat s) else none

/-- The ASCII branch of `unicode.ToLower`: `'A' ≤ r ≤ 'Z'` becomes `r + ('a' - 'A')`. -/
def asciiLower (c : Char) : Char :=
  if 'A'.toNat ≤ c.toNat ∧ c.toNat ≤ 'Z'.toNat then Char.ofNat (c.toNat + 32) else c

/-- Go `unicode.ToLower`: the ASCII rule for `r ≤ MaxASCII`, the case table otherwise. -/
def unicodeToLower (caseTable : Char → Char) (r : Char) : Char :=
  if r.toNat ≤ 0x7F then asciiLower r else caseTable r

/-- Go `strings.ToLower` on well-formed text: every code point through `unicode.ToLower`. -/
def ToLower (caseTable : Char → Char) (s : Str) : Str :=
  s.map (unicodeToLower caseTable)

/-- Go `strings.Contains`. -/
def Contains : Str → Str → Bool
  | [], sub => sub.isEmpty
  | c :: cs, sub => sub.isPrefixOf (c :: cs) || Contains cs sub

/-! ## Regular expressions -/

/-- Syntax tree of the regular expressions the program compiles. -/
inductive Regex where
  /-- the empty expression -/
  | eps
  /-- a literal code point -/
  | lit (c : Char)
  /-- the dot `.`: any code point but the newline -/
  | dot
  /-- a class `[...]` (`neg = false`) or `[^...]` (`neg = true`) over inclusive ranges -/
  | cls (neg : Bool) (ranges : List (Char × Char))
  /-- concatenation -/
  | seq (a b : Regex)
  /-- greedy `a?` -/
  | opt (a : Regex)
  /-- greedy `a*` -/
  | star (a : Regex)
  /-- greedy `a+` -/
  | plus (a : Regex)
  /-- capturing group `(a)` -/
  | group (a : Regex)

namespace Regex

/-- Membership of a code point in a list of inclusive ranges. -/
def inRanges (ranges : List (Char × Char)) (c : Char) : Bool :=
  ranges.any (fun r => decide (r.1.toNat ≤ c.toNat) && decide (c.toNat ≤ r.2.toNat))

/-- Concatenation of a list of expressions. -/
def cat : List Regex → Regex
  | [] => eps
  | [a] => a
  | a :: b :: rest => seq a (cat (b :: rest))

/-- A literal string: the concatenation of its code points. -/
def str (s : Str) : Regex := cat (s.map lit)

/-- Iteration of a one-step matcher, greedy: one more round before stopping.
Rounds that consume nothing are cut, so `fuel = length of the input` is enough. -/
def starRun (step : Str → List Str) : Nat → Str → List Str
  | 0, s => [s]
  | fuel + 1, s =>
    ((step s).filter (fun r => decide (r.length < s.length))).flatMap (starRun step fuel) ++ [s]

/-- Every way `re` matches a prefix of `s`, as the list of what is left of `s`
after the match, in the order a backtracking search finds them. -/
def run : Regex → Str → List Str
  | eps, s => [s]
  | lit c, s =>
    match s with
    | [] => []
    | x :: xs => if x = c then [xs] else []
  | dot, s =>
    match s with
    | [] => []
    | x :: xs => if x = '\n' then [] else [xs]
  | cls neg ranges, s =>
    match s with
    | [] => []
    | x :: xs => if inRanges ranges x != neg then [xs] else []
  | seq a b, s => (run a s).flatMap (run b)
  | opt a, s => run a s ++ [s]
  | star a, s => starRun (run a) s.length s
  | plus a, s => (run a s).flatMap (fun r => starRun (run a) r.length r)
  | group a, s => run a s

end Regex

/-- Go `*regexp.Regexp`: the expression and whether it was compiled with
`MustCompilePOSIX` (leftmost-longest) or `MustCompile` (leftmost-first). -/
structure Regexp where
  expr : Regex
  longest : Bool

/-- The shortest of a list of remainders, the earliest one among equals. -/
def shortest : List Str → Option Str
  | [] => none
  | r :: rs =>
    match shortest rs with
    | none => some r
    | some b => if b.length < r.length then some b else some r

/-- The match of `re` starting exactly at the head of `s`: what is left after it. -/
def Regexp.matchHere (re : Regexp) (s : Str) : Option Str :=
  if re.longest then shortest (re.expr.run s) else (re.expr.run s).head?

/-- Leftmost match in `s`: the text of the match and what follows it. -/
def Regexp.search (re : Regexp) : Str → Option (Str × Str)
  | [] =>
    match re.matchHere [] with
    | some r => some ([], r)
    | none => none
  | c :: cs =>
    match re.matchHere (c :: cs) with
    | some r => some ((c :: cs).take ((c :: cs).length - r.length), r)
    | none => re.search cs

/-- Go `re.MatchString(s)`. -/
def Regexp.MatchString (re : Regexp) (s : Str) : Bool := (re.search s).isSome

/-- Go `re.FindString(s)`: the leftmost match, the empty string when there is none. -/
def Regexp.FindString (re : Regexp) (s : Str) : Str :=
  match re.search s with
  | some (m, _) => m
  | none => []

/-- The loop of Go `allMatches`.  `adjacent` says that the previous match ended
where the search resumes (an empty match there is dropped); after an empty
match the search moves forward by one code point. -/
def Regexp.allMatches (re : Regexp) : Nat → Bool → Str → List Str
  | 0, _, _ => []
  | fuel + 1, adjacent, s =>
    match re.search s with
    | none => []
    | some (m, rest) =>
      if m.isEmpty then
        let here := if adjacent && decide (rest.length = s.length) then [] else [m]
        match rest with
        | [] => here
        | _ :: rest' => here ++ re.allMatches fuel false rest'
      else m :: re.allMatches fuel true rest

/-- Go `re.FindAllString(s, -1)`: the successive non-overlapping matches. -/
def Regexp.FindAllString (re : Regexp) (s : Str) : List Str :=
  re.allMatches (s.length + 1) false s

/-- The pattern `https?\:\/\/play\.golang\.org\/p\/[^>^/]+` of `main`,
compiled with `regexp.MustCompile`.  Inside the brackets the first `^` negates
the class; `>`, the second `^` and `/` are its members. -/
def playgroundUrl : Regexp where
  expr := Regex.cat
    [Regex.str "http".toList, Regex.opt (Regex.lit 's'), Regex.str "://play.golang.org/p/".toList,
     Regex.plus (Regex.cls true [('>', '>'), ('^', '^'), ('/', '/')])]
  longest := false

/-- The pattern
`https?\:\/\/[a-z]*\.wikipedia\.org\/wiki\/([a-zA-Z0-9%_\(\)а-яА-я\,\:]+)`
of `main`, compiled with `regexp.MustCompilePOSIX`.  The two Cyrillic ranges
are U+0430..U+044F and U+0410..U+044F. -/
def wikiUrl : Regexp where
  expr := Regex.cat
    [Regex.str "http".toList, Regex.opt (Regex.lit 's'), Regex.str "://".toList,
     Regex.star (Regex.cls false [('a', 'z')]), Regex.str ".wikipedia.org/wiki/".toList,
     Regex.group (Regex.plus (Regex.cls false
       [('a', 'z'), ('A', 'Z'), ('0', '9'), ('%', '%'), ('_', '_'), ('(', '('), (')', ')'),
        ('а', 'я'), ('А', 'я'), (',', ','), (':', ':')]))]
  longest := true

/-- The pattern `[a-z]+\.wiki` of `wiki`, compiled with `regexp.MustCompilePOSIX`. -/
def langRex : Regexp where
  expr := Regex.cat [Regex.plus (Regex.cls false [('a', 'z')]), Regex.str ".wiki".toList]
  longest := true

/-- The pattern `.org\/wiki\/[a-zA-Z0-9а-яА-Я_\(\)\%\,\:]+` of `wiki`, compiled with
`regexp.MustCompilePOSIX`.  The two Cyrillic ranges are U+0430..U+044F and
U+0410..U+042F. -/
def articleRex : Regexp where
  expr := Regex.cat
    [Regex.dot, Regex.str "org/wiki/".toList,
     Regex.plus (Regex.cls false
       [('a', 'z'), ('A', 'Z'), ('0', '9'), ('а', 'я'), ('А', 'Я'), ('_', '_'), ('(', '('),
        (')', ')'), ('%', '%'), (',', ','), (':', ':')])]
  longest := true

/-! ## Data model (`slack.go`) -/

/-- The `Profile` field of `User`. -/
structure Profile where
  FirstName : Str
  LastName : Str
  RealName : Str
  Email : Str
  Skype : Str
  Phone : Str
  deriving DecidableEq

/-- Go `type User struct`. -/
structure User where
  ID : Str
  Name : Str
  Profile : Profile
  deriving DecidableEq

/-- Go `type Channel struct`. -/
structure Channel where
  ID : Str
  Name : Str
  Members : List Str
  deriving DecidableEq

/-- The `self` field of `helloMessage`. -/
structure BotInfo where
  Id : Str
  Name : Str
  deriving DecidableEq

/-- Go `type helloMessage struct`. -/
structure helloMessage where
  Ok : Bool
  Url : Str
  BotInfo : BotInfo
  Users : List User
  Channels : List Channel
  Error : Str
  deriving DecidableEq

/-- Go `map[string]string`: an association list with one entry per key. -/
abbrev StrMap := List (Str × Str)

/-- Go `m[k] = v`. -/
def StrMap.set (m : StrMap) (k v : Str) : StrMap :=
  (k, v) :: m.filter (fun e => e.1 != k)

/-- Go `m[k]`: the zero value `""` when the key is absent. -/
def StrMap.get (m : StrMap) (k : Str) : Str :=
  match m.lookup k with
  | some v => v
  | none => []

/-- Go `type SlackBot struct`, without the connection and the channels. -/
structure SlackBot where
  token : Str
  info : helloMessage
  userIdName : StrMap
  channelIdName : StrMap
  deriving DecidableEq

/-- Go `type SlackMessage struct` (`SlackEventBase` and `SlackEventError` inlined;
`Type_` is the field `Type`). -/
structure SlackMessage where
  Type_ : Str
  ErrorCode : Int
  ErrorMsg : Str
  Channel : Str
  User : Str
  Text : Str
  deriving DecidableEq

/-- Go `type compileResult struct`. -/
structure compileResult where
  Errors : Str
  Output : Str
  deriving DecidableEq

/-- Go `interface{}` holding a decoded JSON value: a string or anything else. -/
inductive Iface where
  | str (s : Str)
  | other
  deriving DecidableEq

/-- Go `map[string]interface{}`: one page of the summary response. -/
abbrev Page := List (Str × Iface)

/-! ## The outside world and what the program does to it -/

/-- Outcome of an HTTP request followed by `ioutil.ReadAll` of the body. -/
inductive HttpReply where
  /-- the request itself returns an error -/
  | failed
  /-- the request succeeds, reading the body returns an error -/
  | unreadable
  /-- the body -/
  | body (b : Str)
  deriving DecidableEq

/-- Everything the program asks of its environment. -/
structure World where
  /-- the case table of `unicode.ToLower` for code points above 0x7F -/
  caseTable : Char → Char
  /-- answer to `http.Get(url)` -/
  get : Str → HttpReply
  /-- answer to `http.PostForm(url, form)` -/
  postForm : Str → List (Str × Str) → HttpReply
  /-- result of `json.Unmarshal` into a `helloMessage`; `none` is a decoding error -/
  decodeHello : Str → Option helloMessage
  /-- whether `websocket.DefaultDialer.Dial(url, nil)` succeeds -/
  dial : Str → Bool
  /-- result of `json.Unmarshal` into a `compileResult`; `none` is a decoding error -/
  decodeCompile : Str → Option compileResult
  /-- result of `json.Unmarshal` into the summary response: the pages of `query.pages`
  in the order the `range` loop visits them (empty after a decoding error) -/
  decodePages : Str → List Page

/-- One observable action of the program. -/
inductive Effect where
  /-- a line written with `log.Printf` -/
  | log (line : Str)
  /-- the line `log.Printf("new message %s", ...)` with the JSON form of a message -/
  | logMessage (msg : SlackMessage)
  /-- a line written with `fmt.Println` -/
  | println (line : Str)
  /-- a request `http.Get` -/
  | get (url : Str)
  /-- a request `http.PostForm` -/
  | postForm (url : Str) (form : List (Str × Str))
  deriving DecidableEq

/-- A computation: the actions performed, then its result; `none` is a panic. -/
structure Prog (α : Type) where
  trace : List Effect
  result : Option α

namespace Prog

/-- Returns a value, doing nothing. -/
def ret {α : Type} (a : α) : Prog α := ⟨[], some a⟩

/-- Go `panic`. -/
def panic {α : Type} : Prog α := ⟨[], none⟩

/-- Performs one action. -/
def emit (e : Effect) : Prog Unit := ⟨[e], some ()⟩

/-- Sequencing: nothing runs after a panic. -/
def andThen {α β : Type} (p : Prog α) (f : α → Prog β) : Prog β :=
  match p.result with
  | none => ⟨p.trace, none⟩
  | some a => ⟨p.trace ++ (f a).trace, (f a).result⟩

/-- Go `for _, x := range xs { body }`. -/
def forEach {α : Type} : List α → (α → Prog Unit) → Prog Unit
  | [], _ => ret ()
  | x :: xs, body => andThen (body x) (fun _ => forEach xs body)

/-- A slice expression inside a computation: out of range is a panic. -/
def ofSlice (r : Option Str) : Prog Str := ⟨[], r⟩

end Prog

instance : Monad Prog where
  pure := Prog.ret
  bind := Prog.andThen

/-! ## `slack.go` -/

/-- The constant `slackUrl`. -/
def slackUrl : Str := "https://slack.com/api/rtm.start?token=".toList

/-- The two loops of `NewSlackBot` that fill `channelIdName` and `userIdName`. -/
def SlackBot.fill (token : Str) (info : helloMessage) : SlackBot where
  token := token
  info := info
  channelIdName := info.Channels.foldl (fun m channel => m.set channel.ID channel.Name) []
  userIdName := info.Users.foldl (fun m user => m.set user.ID user.Name) []

/-- Go `NewSlackBot`: `none` is the returned error.  The listener goroutine it
starts is not part of the model. -/
def NewSlackBot (w : World) (token : Str) : Option SlackBot :=
  match w.get (slackUrl ++ token) with
  | .failed => none
  | .unreadable => none
  | .body body =>
    match w.decodeHello body with
    | none => none
    | some info => if w.dial info.Url then some (SlackBot.fill token info) else none

/-- Go `(sb *SlackBot) IsBot`. -/
def SlackBot.IsBot (sb : SlackBot) (id : Str) : Bool :=
  decide (id = sb.info.BotInfo.Id) || decide (id = [])

/-- Go `(sb *SlackBot) UserIdToName`. -/
def SlackBot.UserIdToName (sb : SlackBot) (id : Str) : Str := sb.userIdName.get id

/-- Go `(sb *SlackBot) ChannelIdToName`. -/
def SlackBot.ChannelIdToName (sb : SlackBot) (id : Str) : Str := sb.channelIdName.get id

/-- Go `(sm SlackMessage) LowerText`. -/
def SlackMessage.LowerText (caseTable : Char → Char) (sm : SlackMessage) : Str :=
  ToLower caseTable sm.Text

/-- The address `SendMessage` posts to. -/
def postMessageUrl : Str := "https://slack.com/api/chat.postMessage".toList

/-- Go `(sb *SlackBot) SendMessage`; the caller drops the returned error. -/
def SlackBot.SendMessage (sb : SlackBot) (channel text : Str) : Prog Unit :=
  Prog.emit (.postForm postMessageUrl
    [("token".toList, sb.token), ("channel".toList, channel),
     ("username".toList, sb.info.BotInfo.Name), ("text".toList, text)])

/-! ## `playground.go` -/

/-- The address `playground` posts the source to. -/
def compileUrl : Str := "https://play.golang.org/compile".toList

/-- The source text as `playground` shows it: cut after 1024 code points. -/
def clipSource (res : Str) : Str :=
  if runeLen res > 1024 then res.take 1024 ++ "\n...".toList else res

/-- The reply `playground` builds from the source and the compile result. -/
def formatPlayground (res : Str) (compileRes : compileResult) : Str :=
  let res := "Source:\n```".toList ++ clipSource res ++ "```".toList
  let res := if compileRes.Errors ≠ [] then
    res ++ "\n Errors:\n```".toList ++ compileRes.Errors ++ "```".toList else res
  if compileRes.Output ≠ [] then
    res ++ "\nResult:```".toList ++ compileRes.Output ++ "```".toList else res

/-- Go `playground`. -/
def playground (w : World) (uri : Str) : Prog Str := do
  Prog.emit (.get (uri ++ ".go".toList))
  match w.get (uri ++ ".go".toList) with
  | .failed => pure []
  | .unreadable => pure []
  | .body res =>
    Prog.emit (.postForm compileUrl [("body".toList, res)])
    match w.postForm compileUrl [("body".toList, res)] with
    | .failed => Prog.panic
    | .unreadable => pure res
    | .body bytes =>
      match w.decodeCompile bytes with
      | none => pure res
      | some compileRes => pure (formatPlayground res compileRes)

/-- The address `wiki` queries (its local `wikiUrl`). -/
def summaryUrl (lang article : Str) : Str :=
  "https://".toList ++ lang ++
    ".wikipedia.org/w/api.php?format=json&action=query&prop=extracts&exintro=&explaintext=&titles=".toList
    ++ article

/-- The body of the `range` loop of `wiki` on one page. -/
def formatPage (page : Page) : Str :=
  match page.lookup "title".toList with
  | some (.str title) =>
    "*".toList ++ title ++ "*\n".toList ++
      (match page.lookup "extract".toList with
       | some (.str extract) => "```".toList ++ extract ++ "```".toList
       | _ => [])
  | _ => []

/-- The `range` loop of `wiki` over the pages in iteration order, and the
`return ""` after it: the loop returns inside its first round. -/
def wikiPages : List Page → Str
  | [] => []
  | page :: _ => formatPage page

/-- Go `wiki`. -/
def wiki (w : World) (uri : Str) : Prog Str := do
  let lang := langRex.FindString uri
  let lang ← Prog.ofSlice (sliceTo lang ((byteLen lang : Int) - 5))
  let article := articleRex.FindString uri
  let article ← Prog.ofSlice (sliceFrom article 10)
  Prog.emit (.println article)
  Prog.emit (.get (summaryUrl lang article))
  match w.get (summaryUrl lang article) with
  | .failed => pure []
  | .unreadable => pure []
  | .body jsraw =>
    Prog.emit (.println jsraw)
    pure (wikiPages (w.decodePages jsraw))

/-- The body of the loop over the playground addresses in `main`. -/
def playgroundStep (w : World) (bot : SlackBot) (msg : SlackMessage) (uri : Str) : Prog Unit := do
  Prog.emit (.log ("playground url: ".toList ++ uri))
  let text ← playground w uri
  bot.SendMessage msg.Channel text

/-- The body of the loop over the wiki addresses in `main`. -/
def wikiStep (w : World) (bot : SlackBot) (msg : SlackMessage) (uri : Str) : Prog Unit := do
  let text ← wiki w uri
  bot.SendMessage msg.Channel text

/-- The `switch` of `main`. -/
def route (w : World) (bot : SlackBot) (msg : SlackMessage) : Prog Unit :=
  if playgroundUrl.MatchString (msg.LowerText w.caseTable) then
    Prog.forEach (playgroundUrl.FindAllString msg.Text) (playgroundStep w bot msg)
  else if wikiUrl.MatchString (msg.LowerText w.caseTable) then
    Prog.forEach (wikiUrl.FindAllString (msg.LowerText w.caseTable)) (wikiStep w bot msg)
  else if Contains (msg.LowerText w.caseTable) "pong".toList then
    bot.SendMessage msg.Channel
      ("@".toList ++ bot.UserIdToName msg.User ++ ": ping".toList)
  else pure ()

/-- The branch `case msg := <-bot.Messages` of the loop of `main`. -/
def onMessage (w : World) (bot : SlackBot) (msg : SlackMessage) : Prog Unit := do
  Prog.emit (.logMessage msg)
  if msg.Type_ = "message".toList then
    if !bot.IsBot msg.User then
      Prog.emit (.println ("Author: ".toList ++ bot.UserIdToName msg.User))
      Prog.emit (.println ("Channel: ".toList ++ bot.ChannelIdToName msg.Channel))
      Prog.emit (.println ("Text: ".toList ++ msg.Text))
      route w bot msg
    else pure ()
  else pure ()

/-! ## Reading a trace -/

/-- The reply an action sends, if it is a post to `chat.postMessage`: channel and text. -/
def replyOf : Effect → Option (Str × Str)
  | .postForm url [(_, _), (_, channel), (_, _), (_, text)] =>
    if url = postMessageUrl then some (channel, text) else none
  | _ => none

/-- The address an action fetches, if it is an `http.Get`. -/
def fetchOf : Effect → Option Str
  | .get url => some url
  | _ => none

/-- The source an action submits, if it is a post to the compile service. -/
def compileOf : Effect → Option Str
  | .postForm url [(_, src)] => if url = compileUrl then some src else none
  | _ => none

/-- The replies in a trace, in order. -/
def replies (es : List Effect) : List (Str × Str) := es.filterMap replyOf

/-- The addresses fetched in a trace, in order. -/
def fetches (es : List Effect) : List Str := es.filterMap fetchOf

/-- The sources submitted to the compile service in a trace, in order. -/
def compiles (es : List Effect) : List Str := es.filterMap compileOf

/-- Every atom of the expression that accepts a code point accepts its image under `f`. -/
def Regex.Stable (f : Char → Char) : Regex → Prop
  | .eps => True
  | .lit c => f c = c
  | .dot => ∀ x, x ≠ '\n' → f x ≠ '\n'
  | .cls neg ranges =>
    ∀ x, (Regex.inRanges ranges x != neg) = true → (Regex.inRanges ranges (f x) != neg) = true
  | .seq a b => Regex.Stable f a ∧ Regex.Stable f b
  | .opt a => Regex.Stable f a
  | .star a => Regex.Stable f a
  | .plus a => Regex.Stable f a
  | .group a => Regex.Stable f a

/-- The log line and the three printed lines that open the handling of every
message that passes the filter of `main`. -/
def preamble (bot : SlackBot) (msg : SlackMessage) : List Effect :=
  [.logMessage msg,
   .println ("Author: ".toList ++ bot.UserIdToName msg.User),
   .println ("Channel: ".toList ++ bot.ChannelIdToName msg.Channel),
   .println ("Text: ".toList ++ msg.Text)]

/-! ## The playground pattern in words -/

/-- The two ways a playground address starts: scheme `https://` or `http://`,
then `play.golang.org/p/`. -/
def addressStarts : List Str :=
  ["https://play.golang.org/p/".toList, "http://play.golang.org/p/".toList]

/-- The address that starts exactly at the head of `s`, read from the words of the
routing pattern: one of the two starts, then the longest run of code points that
are not in `excluded`, which must not be empty.  Returns the address and what
follows it. -/
def addressHere (excluded : List Char) (s : Str) : Option (Str × Str) :=
  match addressStarts.find? (fun p => p.isPrefixOf s) with
  | none => none
  | some p =>
    if ((s.drop p.length).takeWhile (fun c => !excluded.contains c)).isEmpty then none
    else some (p ++ (s.drop p.length).takeWhile (fun c => !excluded.contains c),
      (s.drop p.length).dropWhile (fun c => !excluded.contains c))

/-- The leftmost non-overlapping addresses of a text: the text is read from left
to right, an address is taken where one starts, and the next one is looked for
after its end (`skip` counts the code points of the current address still to
pass). -/
def addressScan (excluded : List Char) : Nat → Str → List Str
  | _, [] => []
  | skip + 1, _ :: cs => addressScan excluded skip cs
  | 0, c :: cs =>
    match addressHere excluded (c :: cs) with
    | some (a, _) => a :: addressScan excluded (a.length - 1) cs
    | none => addressScan excluded 0 cs

/-- The leftmost non-overlapping playground addresses of a text whose token is a
longest run of code points outside `excluded`. -/
def playgroundAddresses (excluded : List Char) (s : Str) : List Str :=
  addressScan excluded 0 s

/-- The first address of a text, from left to right, and what follows it. -/
def addressLeftmost (excluded : List Char) : Str → Option (Str × Str)
  | [] => none
  | c :: cs =>
    match addressHere excluded (c :: cs) with
    | some found => some found
    | none => addressLeftmost excluded cs

/-! ## Sample data -/

/-- An empty profile. -/
def sampleProfile : Profile := ⟨[], [], [], [], [], []⟩

/-- A handshake answer: the bot `B0`, two users and one channel. -/
def sampleHello : helloMessage where
  Ok := true
  Url := "wss://example.test/rtm".toList
  BotInfo := ⟨"B0".toList, "happybot".toList⟩
  Users :=
    [⟨"U123".toList, "ann".toList, sampleProfile⟩, ⟨"B0".toList, "happybot".toList, sampleProfile⟩]
  Channels := [⟨"C1".toList, "general".toList, ["U123".toList]⟩]
  Error := []

/-- A page without a title. -/
def pageUntitled : Page := [("pageid".toList, .other), ("extract".toList, .str "E0".toList)]

/-- A page with a title and an excerpt. -/
def pageTitled : Page :=
  [("pageid".toList, .other), ("title".toList, .str "Go".toList), ("extract".toList, .str "E1".toList)]

/-- A world in which every request succeeds; the summary answer has two pages,
visited without a title first. -/
def sampleWorld : World where
  caseTable := fun c => c
  get := fun url => .body ("body of ".toList ++ url)
  postForm := fun _ _ => .body "\x7b\x7d".toList
  decodeHello := fun _ => some sampleHello
  dial := fun _ => true
  decodeCompile := fun _ => some ⟨[], "hi".toList⟩
  decodePages := fun _ => [pageUntitled, pageTitled]

/-- The bot that `NewSlackBot` builds in `sampleWorld`. -/
def sampleBot : SlackBot := SlackBot.fill "tok".toList sampleHello

/-- A message of user `U123` in channel `C1`. -/
def sampleMessage (text : Str) : SlackMessage where
  Type_ := "message".toList
  ErrorCode := 0
  ErrorMsg := []
  Channel := "C1".toList
  User := "U123".toList
  Text := text

/-- A world whose playground serves 1100 two-byte code points under `long` and
600 two-byte code points (1200 bytes) under `short`. -/
def clipWorld : World where
  caseTable := fun c => c
  get := fun url =>
    if url = "long.go".toList then .body (List.replicate 1100 'я')
    else .body (List.replicate 600 'я')
  postForm := fun _ _ => .body "\x7b\x7d".toList
  decodeHello := fun _ => none
  dial := fun _ => true
  decodeCompile := fun _ => some ⟨[], "hi".toList⟩
  decodePages := fun _ => []

/-- A world in which the compile service cannot be reached: `http.PostForm` fails. -/
def downWorld : World where
  caseTable := fun c => c
  get := fun url => .body ("body of ".toList ++ url)
  postForm := fun _ _ => .failed
  decodeHello := fun _ => some sampleHello
  dial := fun _ => true
  decodeCompile := fun _ => none
  decodePages := fun _ => []

/-! # Properties -/

/-! ## Association lists -/

theorem StrMap.lookup_filter_ne (m : StrMap) (k k' : Str) (h : k' ≠ k) :
    (m.filter (fun e => e.1 != k)).lookup k' = m.lookup k' := by
  induction m with
  | nil => rfl
  | cons e m ih =>
    obtain ⟨a, b⟩ := e
    by_cases hak : a = k
    · subst hak
      have h1 : (k' == a) = false := by simpa using h
      simp [List.filter, List.lookup, h1, ih]
    · have h2 : (a != k) = true := by simpa using hak
      simp only [List.filter, h2, List.lookup, ih]

theorem StrMap.get_set (m : StrMap) (k v k' : Str) :
    (m.set k v).get k' = if k' = k then v else m.get k' := by
  by_cases h : k' = k
  · subst h
    simp [StrMap.get, StrMap.set, List.lookup]
  · have h1 : (k' == k) = false := by simpa using h
    simp only [StrMap.get, StrMap.set, List.lookup, h1, StrMap.lookup_filter_ne m k k' h, if_neg h]

theorem StrMap.get_foldl_absent {α : Type} (key val : α → Str) (xs : List α) (m : StrMap)
    (k : Str) (h : ∀ x ∈ xs, key x ≠ k) :
    (xs.foldl (fun m x => m.set (key x) (val x)) m).get k = m.get k := by
  induction xs generalizing m with
  | nil => rfl
  | cons x xs ih =>
    rw [List.foldl_cons, ih _ (fun y hy => h y (List.mem_cons_of_mem _ hy)), StrMap.get_set,
      if_neg (fun e => h x (List.mem_cons_self _ _) e.symm)]

theorem StrMap.get_foldl_present {α : Type} (key val : α → Str) (xs : List α) (m : StrMap)
    (hnd : (xs.map key).Nodup) (x : α) (hx : x ∈ xs) :
    (xs.foldl (fun m x => m.set (key x) (val x)) m).get (key x) = val x := by
  induction xs generalizing m with
  | nil => cases hx
  | cons y ys ih =>
    rw [List.map_cons, List.nodup_cons] at hnd
    rw [List.foldl_cons]
    rcases List.mem_cons.mp hx with rfl | hx'
    · rw [StrMap.get_foldl_absent, StrMap.get_set, if_pos rfl]
      intro z hz e
      exact hnd.1 (e ▸ List.mem_map_of_mem key hz)
    · exact ih _ hnd.2 hx'

theorem NewSlackBot_eq_fill (w : World) (token : Str) (sb : SlackBot)
    (h : NewSlackBot w token = some sb) : sb = SlackBot.fill token sb.info := by
  unfold NewSlackBot at h
  split at h
  · cases h
  · cases h
  · split at h
    · cases h
    · split at h
      · cases h; rfl
      · cases h

/-! ## The dispatcher -/

theorem onMessage_pass (w : World) (bot : SlackBot) (msg : SlackMessage)
    (ht : msg.Type_ = "message".toList) (hb : bot.IsBot msg.User = false) :
    onMessage w bot msg =
      ⟨preamble bot msg ++ (route w bot msg).trace, (route w bot msg).result⟩ := by
  simp only [onMessage, ht, hb, bind, Prog.andThen, Prog.emit, preamble, if_true, Bool.not_false,
    List.cons_append, List.nil_append, List.singleton_append]

theorem onMessage_drop (w : World) (bot : SlackBot) (msg : SlackMessage)
    (h : ¬ (msg.Type_ = "message".toList ∧ bot.IsBot msg.User = false)) :
    onMessage w bot msg = ⟨[.logMessage msg], some ()⟩ := by
  by_cases ht : msg.Type_ = "message".toList
  · have hb : bot.IsBot msg.User = true := by
      cases hb : bot.IsBot msg.User
      · exact absurd ⟨ht, hb⟩ h
      · rfl
    simp only [onMessage, ht, hb, bind, Prog.andThen, Prog.emit, pure, Prog.ret, if_true,
      Bool.not_true, List.append_nil]
    rfl
  · simp only [onMessage, ht, bind, Prog.andThen, Prog.emit, pure, Prog.ret, if_false,
      List.append_nil]

theorem IsBot_iff (bot : SlackBot) (id : Str) :
    bot.IsBot id = true ↔ (id = bot.info.BotInfo.Id ∨ id = []) := by
  simp [SlackBot.IsBot]

theorem fetches_preamble (bot : SlackBot) (msg : SlackMessage) (es : List Effect) :
    fetches (preamble bot msg ++ es) = fetches es := rfl

theorem compiles_preamble (bot : SlackBot) (msg : SlackMessage) (es : List Effect) :
    compiles (preamble bot msg ++ es) = compiles es := rfl

theorem replies_preamble (bot : SlackBot) (msg : SlackMessage) (es : List Effect) :
    replies (preamble bot msg ++ es) = replies es := rfl

theorem replies_SendMessage (bot : SlackBot) (channel text : Str) :
    replies (bot.SendMessage channel text).trace = [(channel, text)] := by
  simp only [SlackBot.SendMessage, Prog.emit, replies, List.filterMap_cons, replyOf, if_true,
    List.filterMap_nil]

/-! ## The matcher under a map of code points -/

theorem Regex.starRun_map (f : Char → Char) (step : Str → List Str)
    (hstep : ∀ s r, r ∈ step s → r.map f ∈ step (s.map f)) :
    ∀ (fuel : Nat) (s r : Str), r ∈ Regex.starRun step fuel s →
      r.map f ∈ Regex.starRun step fuel (s.map f) := by
  intro fuel
  induction fuel with
  | zero =>
    intro s r h
    simp only [Regex.starRun, List.mem_singleton] at h ⊢
    rw [h]
  | succ n ih =>
    intro s r h
    simp only [Regex.starRun, List.mem_append, List.mem_flatMap, List.mem_filter,
      List.mem_singleton, decide_eq_true_eq] at h ⊢
    rcases h with ⟨t, ⟨ht, hlen⟩, hr⟩ | h
    · exact Or.inl ⟨t.map f, ⟨hstep s t ht, by simpa using hlen⟩, ih t r hr⟩
    · exact Or.inr (by rw [h])

theorem Regex.run_map (f : Char → Char) :
    ∀ (re : Regex), Regex.Stable f re → ∀ s r : Str, r ∈ re.run s → r.map f ∈ re.run (s.map f) := by
  intro re
  induction re with
  | eps =>
    intro _ s r h
    simp only [Regex.run, List.mem_singleton] at h ⊢
    rw [h]
  | lit c =>
    intro hst s r h
    cases s with
    | nil => simp [Regex.run] at h
    | cons x xs =>
      simp only [Regex.run] at h
      split at h
      · rename_i hx
        simp only [List.mem_singleton] at h
        subst hx h
        have hfc : f x = x := hst
        simp [Regex.run, hfc]
      · cases h
  | dot =>
    intro hst s r h
    cases s with
    | nil => simp [Regex.run] at h
    | cons x xs =>
      simp only [Regex.run] at h
      split at h
      · cases h
      · rename_i hx
        simp only [List.mem_singleton] at h
        subst h
        have hfx : f x ≠ '\n' := hst x hx
        simp [Regex.run, hfx]
  | cls neg ranges =>
    intro hst s r h
    cases s with
    | nil => simp [Regex.run] at h
    | cons x xs =>
      simp only [Regex.run] at h
      split at h
      · rename_i hx
        simp only [List.mem_singleton] at h
        subst h
        have hfx := hst x hx
        simp only [Regex.run, List.map_cons, hfx, if_true, List.mem_singleton]
      · cases h
  | seq a b iha ihb =>
    intro hst s r h
    simp only [Regex.run, List.mem_flatMap] at h ⊢
    obtain ⟨t, ht, hr⟩ := h
    exact ⟨t.map f, iha hst.1 s t ht, ihb hst.2 t r hr⟩
  | opt a iha =>
    intro hst s r h
    simp only [Regex.run, List.mem_append, List.mem_singleton] at h ⊢
    rcases h with h | h
    · exact Or.inl (iha hst s r h)
    · exact Or.inr (by rw [h])
  | star a iha =>
    intro hst s r h
    simp only [Regex.run] at h ⊢
    have := Regex.starRun_map f (Regex.run a) (iha hst) s.length s r h
    simpa using this
  | plus a iha =>
    intro hst s r h
    simp only [Regex.run, List.mem_flatMap] at h ⊢
    obtain ⟨t, ht, hr⟩ := h
    refine ⟨t.map f, iha hst s t ht, ?_⟩
    have := Regex.starRun_map f (Regex.run a) (iha hst) t.length t r hr
    simpa using this
  | group a iha =>
    intro hst s r h
    simp only [Regex.run] at h ⊢
    exact iha hst s r h

theorem shortest_isSome (l : List Str) : (shortest l).isSome = !l.isEmpty := by
  cases l with
  | nil => rfl
  | cons r rs =>
    simp only [shortest]
    split
    · rfl
    · split <;> rfl

theorem Regexp.matchHere_isSome (re : Regexp) (s : Str) :
    (re.matchHere s).isSome = true ↔ re.expr.run s ≠ [] := by
  unfold Regexp.matchHere
  split
  · rw [shortest_isSome]
    cases re.expr.run s <;> simp
  · cases re.expr.run s <;> simp

theorem Regexp.matchHere_map (f : Char → Char) (re : Regexp) (hst : Regex.Stable f re.expr)
    (s : Str) (h : (re.matchHere s).isSome = true) : (re.matchHere (s.map f)).isSome = true := by
  rw [Regexp.matchHere_isSome] at h ⊢
  obtain ⟨r, hr⟩ := List.exists_mem_of_ne_nil _ h
  exact List.ne_nil_of_mem (Regex.run_map f re.expr hst s r hr)

theorem Regexp.search_nil_isSome (re : Regexp) :
    (re.search []).isSome = (re.matchHere []).isSome := by
  simp only [Regexp.search]
  cases re.matchHere [] <;> rfl

theorem Regexp.search_cons_isSome (re : Regexp) (c : Char) (cs : Str) :
    (re.search (c :: cs)).isSome = ((re.matchHere (c :: cs)).isSome || (re.search cs).isSome) := by
  simp only [Regexp.search]
  cases re.matchHere (c :: cs) <;> simp

theorem Regexp.MatchString_map (f : Char → Char) (re : Regexp) (hst : Regex.Stable f re.expr)
    (s : Str) (h : re.MatchString s = true) : re.MatchString (s.map f) = true := by
  unfold Regexp.MatchString at h ⊢
  induction s with
  | nil =>
    rw [Regexp.search_nil_isSome] at h
    rw [List.map_nil, Regexp.search_nil_isSome]
    exact Regexp.matchHere_map f re hst [] h
  | cons c cs ih =>
    rw [Regexp.search_cons_isSome, Bool.or_eq_true] at h
    rw [List.map_cons, Regexp.search_cons_isSome, Bool.or_eq_true]
    rcases h with h | h
    · exact Or.inl (Regexp.matchHere_map f re hst (c :: cs) h)
    · exact Or.inr (ih h)

theorem Regexp.FindAllString_ne_nil (re : Regexp) (s : Str) (h : re.MatchString s = true) :
    re.FindAllString s ≠ [] := by
  unfold Regexp.MatchString at h
  unfold Regexp.FindAllString
  obtain ⟨⟨m, rest⟩, hm⟩ := Option.isSome_iff_exists.mp h
  simp only [Regexp.allMatches, hm]
  split
  · cases rest <;> simp
  · simp

/-! ## Lower-casing and the playground pattern -/

theorem Char.toNat_ofNat_of_lt (n : Nat) (h : n < 0xD800) : (Char.ofNat n).toNat = n := by
  have hv : n.isValidChar := Or.inl h
  unfold Char.ofNat
  rw [dif_pos hv]
  unfold Char.ofNatAux Char.toNat
  simp [UInt32.toNat]

theorem Char.eq_of_toNat_eq (c d : Char) (h : c.toNat = d.toNat) : c = d := by
  rw [← Char.ofNat_toNat c, ← Char.ofNat_toNat d, h]

theorem asciiLower_toNat (c : Char) :
    (asciiLower c).toNat = c.toNat ∨
      (65 ≤ c.toNat ∧ c.toNat ≤ 90 ∧ (asciiLower c).toNat = c.toNat + 32) := by
  unfold asciiLower
  split
  · rename_i h
    right
    have h65 : 'A'.toNat = 65 := rfl
    have h90 : 'Z'.toNat = 90 := rfl
    rw [h65, h90] at h
    exact ⟨h.1, h.2, Char.toNat_ofNat_of_lt _ (by omega)⟩
  · exact Or.inl rfl

theorem inRanges_token (x : Char) :
    Regex.inRanges [('>', '>'), ('^', '^'), ('/', '/')] x = true ↔
      (x.toNat = 62 ∨ x.toNat = 94 ∨ x.toNat = 47) := by
  have h1 : '>'.toNat = 62 := rfl
  have h2 : '^'.toNat = 94 := rfl
  have h3 : '/'.toNat = 47 := rfl
  simp only [Regex.inRanges, List.any_cons, List.any_nil, Bool.or_false, Bool.or_eq_true,
    Bool.and_eq_true, decide_eq_true_eq, h1, h2, h3]
  omega

theorem unicodeToLower_token (caseTable : Char → Char)
    (htbl : ∀ c : Char, 0x7F < c.toNat →
      caseTable c ≠ '>' ∧ caseTable c ≠ '^' ∧ caseTable c ≠ '/')
    (x : Char) (hx : Regex.inRanges [('>', '>'), ('^', '^'), ('/', '/')] x = false) :
    Regex.inRanges [('>', '>'), ('^', '^'), ('/', '/')] (unicodeToLower caseTable x) = false := by
  rw [Bool.eq_false_iff, Ne, inRanges_token] at hx ⊢
  unfold unicodeToLower
  split
  · rcases asciiLower_toNat x with h | ⟨h1, h2, h3⟩
    · rw [h]
      exact hx
    · omega
  · rename_i hlt
    obtain ⟨t1, t2, t3⟩ := htbl x (by omega)
    rintro (h | h | h)
    · exact t1 (Char.eq_of_toNat_eq _ _ h)
    · exact t2 (Char.eq_of_toNat_eq _ _ h)
    · exact t3 (Char.eq_of_toNat_eq _ _ h)

theorem Regex.stable_cat (f : Char → Char) (l : List Regex)
    (h : ∀ r ∈ l, Regex.Stable f r) : Regex.Stable f (Regex.cat l) := by
  induction l with
  | nil => exact True.intro
  | cons a rest ih =>
    cases rest with
    | nil => exact h a (List.mem_cons_self _ _)
    | cons b rest =>
      exact ⟨h a (List.mem_cons_self _ _), ih (fun r hr => h r (List.mem_cons_of_mem _ hr))⟩

theorem Regex.stable_str (f : Char → Char) (s : Str) (h : ∀ c ∈ s, f c = c) :
    Regex.Stable f (Regex.str s) := by
  apply Regex.stable_cat
  intro r hr
  obtain ⟨c, hc, rfl⟩ := List.mem_map.mp hr
  exact h c hc

theorem unicodeToLower_fixed (caseTable : Char → Char) (c : Char)
    (h : c.toNat ≤ 0x7F ∧ ¬ ('A'.toNat ≤ c.toNat ∧ c.toNat ≤ 'Z'.toNat)) :
    unicodeToLower caseTable c = c := by
  unfold unicodeToLower asciiLower
  rw [if_pos h.1, if_neg h.2]

theorem playgroundUrl_stable (caseTable : Char → Char)
    (htbl : ∀ c : Char, 0x7F < c.toNat →
      caseTable c ≠ '>' ∧ caseTable c ≠ '^' ∧ caseTable c ≠ '/') :
    Regex.Stable (unicodeToLower caseTable) playgroundUrl.expr := by
  apply Regex.stable_cat
  intro r hr
  simp only [List.mem_cons, List.mem_singleton, List.not_mem_nil, or_false] at hr
  rcases hr with rfl | rfl | rfl | rfl
  · exact Regex.stable_str _ _ (fun c hc => unicodeToLower_fixed caseTable c
      ((by decide : ∀ c ∈ "http".toList,
        c.toNat ≤ 0x7F ∧ ¬ ('A'.toNat ≤ c.toNat ∧ c.toNat ≤ 'Z'.toNat)) c hc))
  · exact unicodeToLower_fixed caseTable 's' (by decide)
  · exact Regex.stable_str _ _ (fun c hc => unicodeToLower_fixed caseTable c
      ((by decide : ∀ c ∈ "://play.golang.org/p/".toList,
        c.toNat ≤ 0x7F ∧ ¬ ('A'.toNat ≤ c.toNat ∧ c.toNat ≤ 'Z'.toNat)) c hc))
  · intro x hx
    have hx' : Regex.inRanges [('>', '>'), ('^', '^'), ('/', '/')] x = false := by
      cases h : Regex.inRanges [('>', '>'), ('^', '^'), ('/', '/')] x
      · rfl
      · rw [h] at hx
        cases hx
    rw [unicodeToLower_token caseTable htbl x hx']
    rfl

theorem playgroundUrl_match_lower (caseTable : Char → Char)
    (htbl : ∀ c : Char, 0x7F < c.toNat →
      caseTable c ≠ '>' ∧ caseTable c ≠ '^' ∧ caseTable c ≠ '/')
    (s : Str) (h : playgroundUrl.MatchString s = true) :
    playgroundUrl.MatchString (ToLower caseTable s) = true :=
  Regexp.MatchString_map _ playgroundUrl (playgroundUrl_stable caseTable htbl) s h

/-! ## Traces of the handlers -/

theorem fetches_append (a b : List Effect) : fetches (a ++ b) = fetches a ++ fetches b :=
  List.filterMap_append a b fetchOf

theorem replies_append (a b : List Effect) : replies (a ++ b) = replies a ++ replies b :=
  List.filterMap_append a b replyOf

theorem playground_fetches (w : World) (uri : Str) :
    fetches (playground w uri).trace = [uri ++ ".go".toList] := by
  simp only [playground, bind, Prog.andThen, Prog.emit, pure, Prog.ret]
  cases w.get (uri ++ ".go".toList) with
  | failed => rfl
  | unreadable => rfl
  | body res =>
    simp only []
    cases w.postForm compileUrl [("body".toList, res)] with
    | failed => rfl
    | unreadable => rfl
    | body bytes =>
      simp only []
      cases w.decodeCompile bytes <;> rfl

theorem playground_replies (w : World) (uri : Str) :
    replies (playground w uri).trace = [] := by
  simp only [playground, bind, Prog.andThen, Prog.emit, pure, Prog.ret]
  cases w.get (uri ++ ".go".toList) with
  | failed => rfl
  | unreadable => rfl
  | body res =>
    simp only []
    cases w.postForm compileUrl [("body".toList, res)] with
    | failed => rfl
    | unreadable => rfl
    | body bytes =>
      simp only []
      cases w.decodeCompile bytes <;> rfl

theorem playgroundStep_trace (w : World) (bot : SlackBot) (msg : SlackMessage) (uri : Str) :
    fetches (playgroundStep w bot msg uri).trace = [uri ++ ".go".toList] ∧
    ((playground w uri).result = none →
      replies (playgroundStep w bot msg uri).trace = [] ∧
      (playgroundStep w bot msg uri).result = none) ∧
    (∀ text, (playground w uri).result = some text →
      replies (playgroundStep w bot msg uri).trace = [(msg.Channel, text)] ∧
      (playgroundStep w bot msg uri).result = some ()) := by
  have hf := playground_fetches w uri
  have hr := playground_replies w uri
  refine ⟨?_, ?_, ?_⟩
  · simp only [playgroundStep, bind, Prog.andThen, Prog.emit]
    cases hres : (playground w uri).result with
    | none =>
      simp only [List.singleton_append]
      exact hf
    | some text =>
      simp only [List.singleton_append]
      show fetches ((playground w uri).trace ++ (bot.SendMessage msg.Channel text).trace) = _
      rw [fetches_append, hf]
      rfl
  · intro hres
    simp only [playgroundStep, bind, Prog.andThen, Prog.emit, hres, List.singleton_append]
    exact ⟨hr, trivial⟩
  · intro text hres
    simp only [playgroundStep, bind, Prog.andThen, Prog.emit, hres, List.singleton_append]
    refine ⟨?_, rfl⟩
    show replies ((playground w uri).trace ++ (bot.SendMessage msg.Channel text).trace) = _
    rw [replies_append, hr, replies_SendMessage]
    rfl

theorem Prog.forEach_cons_none {α : Type} (x : α) (xs : List α) (body : α → Prog Unit)
    (h : (body x).result = none) :
    Prog.forEach (x :: xs) body = ⟨(body x).trace, none⟩ := by
  simp only [Prog.forEach, Prog.andThen, h]

theorem Prog.forEach_cons_some {α : Type} (x : α) (xs : List α) (body : α → Prog Unit)
    (h : (body x).result = some ()) :
    Prog.forEach (x :: xs) body =
      ⟨(body x).trace ++ (Prog.forEach xs body).trace, (Prog.forEach xs body).result⟩ := by
  simp only [Prog.forEach, Prog.andThen, h]

theorem forEach_playgroundStep (w : World) (bot : SlackBot) (msg : SlackMessage)
    (uris : List Str) :
    (∀ u ∈ fetches (Prog.forEach uris (playgroundStep w bot msg)).trace,
      ∃ uri ∈ uris, u = uri ++ ".go".toList) ∧
    (∀ r ∈ replies (Prog.forEach uris (playgroundStep w bot msg)).trace,
      r.1 = msg.Channel ∧ ∃ uri ∈ uris, (playground w uri).result = some r.2) ∧
    ((Prog.forEach uris (playgroundStep w bot msg)).result = some () →
      (replies (Prog.forEach uris (playgroundStep w bot msg)).trace).length = uris.length ∧
      fetches (Prog.forEach uris (playgroundStep w bot msg)).trace =
        uris.map (fun uri => uri ++ ".go".toList)) := by
  induction uris with
  | nil =>
    refine ⟨?_, ?_, ?_⟩
    · intro u hu
      cases hu
    · intro r hr
      cases hr
    · intro _
      exact ⟨rfl, rfl⟩
  | cons x xs ih =>
    obtain ⟨ih1, ih2, ih3⟩ := ih
    obtain ⟨hf, hnone, hsome⟩ := playgroundStep_trace w bot msg x
    cases hres : (playground w x).result with
    | none =>
      obtain ⟨hr, hn⟩ := hnone hres
      rw [Prog.forEach_cons_none x xs _ hn]
      refine ⟨?_, ?_, ?_⟩
      · intro u hu
        rw [hf, List.mem_singleton] at hu
        exact ⟨x, List.mem_cons_self _ _, hu⟩
      · intro r hmem
        rw [hr] at hmem
        cases hmem
      · intro h
        cases h
    | some text =>
      obtain ⟨hr, hs⟩ := hsome text hres
      rw [Prog.forEach_cons_some x xs _ hs]
      refine ⟨?_, ?_, ?_⟩
      · intro u hu
        rw [fetches_append, hf, List.mem_append, List.mem_singleton] at hu
        rcases hu with hu | hu
        · exact ⟨x, List.mem_cons_self _ _, hu⟩
        · obtain ⟨uri, hmem, he⟩ := ih1 u hu
          exact ⟨uri, List.mem_cons_of_mem _ hmem, he⟩
      · intro r hmem
        rw [replies_append, hr, List.mem_append, List.mem_singleton] at hmem
        rcases hmem with hmem | hmem
        · subst hmem
          exact ⟨rfl, x, List.mem_cons_self _ _, hres⟩
        · obtain ⟨hc, uri, hu, he⟩ := ih2 r hmem
          exact ⟨hc, uri, List.mem_cons_of_mem _ hu, he⟩
      · intro h
        obtain ⟨hl, hfx⟩ := ih3 h
        refine ⟨?_, ?_⟩
        · rw [replies_append, hr, List.length_append, hl]
          simp only [List.length_cons, List.length_nil]
          omega
        · rw [fetches_append, hf, hfx]
          rfl

theorem forEach_playgroundStep_head (w : World) (bot : SlackBot) (msg : SlackMessage)
    (uri : Str) (rest : List Str) :
    uri ++ ".go".toList ∈
      fetches (Prog.forEach (uri :: rest) (playgroundStep w bot msg)).trace := by
  obtain ⟨hf, hnone, hsome⟩ := playgroundStep_trace w bot msg uri
  cases hres : (playground w uri).result with
  | none =>
    rw [Prog.forEach_cons_none uri rest _ (hnone hres).2, hf]
    exact List.mem_singleton_self _
  | some text =>
    rw [Prog.forEach_cons_some uri rest _ (hsome text hres).2, fetches_append, hf]
    exact List.mem_append_left _ (List.mem_singleton_self _)

/-! ## Fuel of the matcher -/

theorem List.flatMap_eq_of_forall {α β : Type} (l : List α) (f g : α → List β)
    (h : ∀ a ∈ l, f a = g a) : l.flatMap f = l.flatMap g := by
  induction l with
  | nil => rfl
  | cons a l ih =>
    rw [List.flatMap_cons, List.flatMap_cons, h a (List.mem_cons_self _ _),
      ih (fun b hb => h b (List.mem_cons_of_mem _ hb))]

/-- The iteration does not depend on its fuel once the fuel covers the input. -/
theorem Regex.starRun_fuel (step : Str → List Str) :
    ∀ (n m : Nat) (s : Str), s.length ≤ n → s.length ≤ m →
      Regex.starRun step n s = Regex.starRun step m s := by
  intro n
  induction n with
  | zero =>
    intro m s hn _
    have hs : s = [] := List.length_eq_zero.mp (Nat.le_zero.mp hn)
    subst hs
    cases m with
    | zero => rfl
    | succ k => simp [Regex.starRun]
  | succ n ih =>
    intro m s hn hm
    cases m with
    | zero =>
      have hs : s = [] := List.length_eq_zero.mp (Nat.le_zero.mp hm)
      subst hs
      simp [Regex.starRun]
    | succ k =>
      simp only [Regex.starRun]
      congr 1
      apply List.flatMap_eq_of_forall
      intro r hr
      have hlt : r.length < s.length := by
        simpa using (List.mem_filter.mp hr).2
      exact ih k r (by omega) (by omega)

theorem Regex.starRun_length_le (step : Str → List Str) :
    ∀ (fuel : Nat) (s r : Str), r ∈ Regex.starRun step fuel s → r.length ≤ s.length := by
  intro fuel
  induction fuel with
  | zero =>
    intro s r h
    simp only [Regex.starRun, List.mem_singleton] at h
    rw [h]
  | succ n ih =>
    intro s r h
    simp only [Regex.starRun, List.mem_append, List.mem_flatMap, List.mem_filter,
      List.mem_singleton, decide_eq_true_eq] at h
    rcases h with ⟨t, ⟨_, hlen⟩, hr⟩ | h
    · have := ih t r hr
      omega
    · rw [h]

/-- What is left after a match is never longer than the input. -/
theorem Regex.run_length_le :
    ∀ (re : Regex) (s r : Str), r ∈ re.run s → r.length ≤ s.length := by
  intro re
  induction re with
  | eps =>
    intro s r h
    simp only [Regex.run, List.mem_singleton] at h
    rw [h]
  | lit c =>
    intro s r h
    cases s with
    | nil => simp [Regex.run] at h
    | cons x xs =>
      simp only [Regex.run] at h
      split at h
      · simp only [List.mem_singleton] at h
        subst h
        simp
      · cases h
  | dot =>
    intro s r h
    cases s with
    | nil => simp [Regex.run] at h
    | cons x xs =>
      simp only [Regex.run] at h
      split at h
      · cases h
      · simp only [List.mem_singleton] at h
        subst h
        simp
  | cls neg ranges =>
    intro s r h
    cases s with
    | nil => simp [Regex.run] at h
    | cons x xs =>
      simp only [Regex.run] at h
      split at h
      · simp only [List.mem_singleton] at h
        subst h
        simp
      · cases h
  | seq a b iha ihb =>
    intro s r h
    simp only [Regex.run, List.mem_flatMap] at h
    obtain ⟨t, ht, hr⟩ := h
    have h1 := iha s t ht
    have h2 := ihb t r hr
    omega
  | opt a iha =>
    intro s r h
    simp only [Regex.run, List.mem_append, List.mem_singleton] at h
    rcases h with h | h
    · exact iha s r h
    · rw [h]
  | star a _ =>
    intro s r h
    simp only [Regex.run] at h
    exact Regex.starRun_length_le _ _ s r h
  | plus a iha =>
    intro s r h
    simp only [Regex.run, List.mem_flatMap] at h
    obtain ⟨t, ht, hr⟩ := h
    have h1 := iha s t ht
    have h2 := Regex.starRun_length_le _ _ t r hr
    omega
  | group a iha =>
    intro s r h
    simp only [Regex.run] at h
    exact iha s r h

theorem shortest_mem (l : List Str) (r : Str) (h : shortest l = some r) : r ∈ l := by
  induction l generalizing r with
  | nil => cases h
  | cons x xs ih =>
    simp only [shortest] at h
    cases hs : shortest xs with
    | none =>
      rw [hs] at h
      cases h
      exact List.mem_cons_self _ _
    | some b =>
      rw [hs] at h
      simp only [] at h
      split at h
      · cases h
        exact List.mem_cons_of_mem _ (ih _ hs)
      · cases h
        exact List.mem_cons_self _ _

theorem Regexp.matchHere_length_le (re : Regexp) (s r : Str) (h : re.matchHere s = some r) :
    r.length ≤ s.length := by
  unfold Regexp.matchHere at h
  split at h
  · exact Regex.run_length_le _ s r (shortest_mem _ r h)
  · exact Regex.run_length_le _ s r (List.mem_of_mem_head? h)

/-- A match found by the search leaves a remainder no longer than the input, and a
shorter one when the match is not empty. -/
theorem Regexp.search_length (re : Regexp) :
    ∀ (s m rest : Str), re.search s = some (m, rest) →
      rest.length ≤ s.length ∧ (m.isEmpty = false → rest.length < s.length) := by
  intro s
  induction s with
  | nil =>
    intro m rest h
    simp only [Regexp.search] at h
    split at h
    · rename_i r hr
      cases h
      exact ⟨Regexp.matchHere_length_le re [] rest hr, fun hm => by cases hm⟩
    · cases h
  | cons c cs ih =>
    intro m rest h
    simp only [Regexp.search] at h
    split at h
    · rename_i r hr
      cases h
      have hle := Regexp.matchHere_length_le re (c :: cs) rest hr
      refine ⟨hle, fun hm => ?_⟩
      by_contra hge
      have heq : (c :: cs).length - rest.length = 0 := by omega
      rw [heq] at hm
      cases hm
    · obtain ⟨h1, h2⟩ := ih m rest h
      refine ⟨by simp only [List.length_cons]; omega, fun hm => ?_⟩
      have := h2 hm
      simp only [List.length_cons]
      omega

/-- The loop of `FindAllString` does not depend on its fuel once the fuel exceeds
the length of the input: `FindAllString` never stops for lack of fuel. -/
theorem Regexp.allMatches_fuel (re : Regexp) :
    ∀ (n m : Nat) (adjacent : Bool) (s : Str), s.length < n → s.length < m →
      re.allMatches n adjacent s = re.allMatches m adjacent s := by
  intro n
  induction n with
  | zero =>
    intro m adjacent s hn _
    omega
  | succ n ih =>
    intro m adjacent s hn hm
    cases m with
    | zero => omega
    | succ k =>
      simp only [Regexp.allMatches]
      cases hsearch : re.search s with
      | none => rfl
      | some found =>
        obtain ⟨mt, rest⟩ := found
        obtain ⟨hle, hlt⟩ := Regexp.search_length re s mt rest hsearch
        simp only []
        split
        · cases rest with
          | nil => rfl
          | cons x rest' =>
            simp only []
            rw [ih k false rest' (by simp only [List.length_cons] at hle; omega)
              (by simp only [List.length_cons] at hle; omega)]
        · rename_i hne
          have hne' : mt.isEmpty = false := by
            cases h : mt.isEmpty
            · rfl
            · exact absurd h hne
          have := hlt hne'
          rw [ih k true rest (by omega) (by omega)]

theorem forEach_playgroundStep_split (w : World) (bot : SlackBot) (msg : SlackMessage)
    (uris : List Str) :
    ∃ done rest : List Str, uris = done ++ rest ∧
      replies (Prog.forEach uris (playgroundStep w bot msg)).trace =
        done.map (fun uri => (msg.Channel, ((playground w uri).result).getD [])) ∧
      fetches (Prog.forEach uris (playgroundStep w bot msg)).trace =
        (done ++ rest.head?.toList).map (fun uri => uri ++ ".go".toList) ∧
      (∀ uri ∈ done, (playground w uri).result ≠ none) ∧
      ((rest = [] ∧ (Prog.forEach uris (playgroundStep w bot msg)).result = some ()) ∨
        (∃ uri tail, rest = uri :: tail ∧ (playground w uri).result = none ∧
          (Prog.forEach uris (playgroundStep w bot msg)).result = none)) := by
  induction uris with
  | nil => exact ⟨[], [], rfl, rfl, rfl, fun _ h => (by cases h), Or.inl ⟨rfl, rfl⟩⟩
  | cons x xs ih =>
    obtain ⟨hf, hnone, hsome⟩ := playgroundStep_trace w bot msg x
    cases hres : (playground w x).result with
    | none =>
      obtain ⟨hr, hn⟩ := hnone hres
      rw [Prog.forEach_cons_none x xs _ hn]
      exact ⟨[], x :: xs, rfl, hr, hf, fun _ h => (by cases h), Or.inr ⟨x, xs, rfl, hres, rfl⟩⟩
    | some text =>
      obtain ⟨hr, hs⟩ := hsome text hres
      obtain ⟨done, rest, hsplit, hrep, hfet, hdone, hend⟩ := ih
      rw [Prog.forEach_cons_some x xs _ hs]
      refine ⟨x :: done, rest, by rw [hsplit]; rfl, ?_, ?_, ?_, hend⟩
      · rw [replies_append, hr, hrep, List.map_cons, hres]
        rfl
      · rw [fetches_append, hf, hfet]
        rfl
      · intro uri hmem
        rcases List.mem_cons.mp hmem with h | h
        · rw [h, hres]
          exact Option.some_ne_none text
        · exact hdone uri h

theorem sampleWorld_caseTable (c : Char) (hc : 0x7F < c.toNat) :
    sampleWorld.caseTable c ≠ '>' ∧ sampleWorld.caseTable c ≠ '^' ∧
      sampleWorld.caseTable c ≠ '/' := by
  refine ⟨?_, ?_, ?_⟩ <;>
  · intro e
    have hce : c = _ := e
    subst hce
    exact absurd hc (by decide)

/-! ## The playground pattern and its reading in words -/

theorem Regex.run_seq (a b : Regex) (s : Str) :
    (Regex.seq a b).run s = (a.run s).flatMap b.run := rfl

theorem Regex.run_opt (a : Regex) (s : Str) : (Regex.opt a).run s = a.run s ++ [s] := rfl

theorem Regex.run_plus (a : Regex) (s : Str) :
    (Regex.plus a).run s = (a.run s).flatMap (fun r => Regex.starRun a.run r.length r) := rfl

theorem Regex.mem_run_lit (c : Char) (s r : Str) : r ∈ (Regex.lit c).run s ↔ s = c :: r := by
  cases s with
  | nil => simp [Regex.run]
  | cons x xs =>
    simp only [Regex.run]
    split
    · rename_i h
      subst h
      simp only [List.mem_singleton, List.cons.injEq, true_and]
      exact eq_comm
    · rename_i h
      simp only [List.not_mem_nil, List.cons.injEq, false_iff, not_and]
      intro h'
      exact absurd h' h

theorem Regex.mem_run_str (l s r : Str) :
    r ∈ (Regex.str l).run s ↔ s = l ++ r := by
  unfold Regex.str
  induction l generalizing s with
  | nil =>
    simp only [List.map_nil, Regex.cat, Regex.run, List.mem_singleton, List.nil_append]
    exact eq_comm
  | cons c cs ih =>
    cases cs with
    | nil =>
      simp only [List.map_cons, List.map_nil, Regex.cat]
      cases s with
      | nil => simp [Regex.run]
      | cons x xs =>
        simp only [Regex.run]
        split
        · rename_i h
          subst h
          simp
          exact eq_comm
        · rename_i h
          simp
          intro h'
          exact absurd h' h
    | cons d ds =>
      simp only [List.map_cons, Regex.cat, Regex.run, List.mem_flatMap]
      have ih' := fun s => ih (s := s)
      simp only [List.map_cons] at ih'
      constructor
      · rintro ⟨t, ht, hr⟩
        cases s with
        | nil => simp [Regex.run] at ht
        | cons x xs =>
          simp only [Regex.run] at ht
          split at ht
          · rename_i h
            subst h
            simp only [List.mem_singleton] at ht
            subst ht
            rw [(ih' t).mp hr]
            rfl
          · cases ht
      · intro h
        subst h
        refine ⟨d :: ds ++ r, ?_, (ih' _).mpr rfl⟩
        simp [Regex.run]

theorem token_accept (x : Char) :
    (Regex.inRanges [('>', '>'), ('^', '^'), ('/', '/')] x != true) =
      !(['>', '^', '/'].contains x) := by
  have hiff := inRanges_token x
  have h1 : x = '>' ↔ x.toNat = 62 := ⟨fun h => by rw [h]; rfl, fun h => Char.eq_of_toNat_eq _ _ h⟩
  have h2 : x = '^' ↔ x.toNat = 94 := ⟨fun h => by rw [h]; rfl, fun h => Char.eq_of_toNat_eq _ _ h⟩
  have h3 : x = '/' ↔ x.toNat = 47 := ⟨fun h => by rw [h]; rfl, fun h => Char.eq_of_toNat_eq _ _ h⟩
  cases hin : Regex.inRanges [('>', '>'), ('^', '^'), ('/', '/')] x
  · have hn : ¬ (x.toNat = 62 ∨ x.toNat = 94 ∨ x.toNat = 47) := by
      rw [← hiff, hin]
      exact Bool.false_ne_true
    have : ¬ (x = '>' ∨ x = '^' ∨ x = '/') := by rw [h1, h2, h3]; exact hn
    simp only [not_or] at this
    simp [this.1, this.2.1, this.2.2]
  · have hn : x.toNat = 62 ∨ x.toNat = 94 ∨ x.toNat = 47 := hiff.mp hin
    rw [← h1, ← h2, ← h3] at hn
    rcases hn with h | h | h <;> subst h <;> rfl

theorem run_token_cons (x : Char) (xs : Str) :
    (Regex.cls true [('>', '>'), ('^', '^'), ('/', '/')]).run (x :: xs) =
      if (!(['>', '^', '/'].contains x)) = true then [xs] else [] := by
  simp only [Regex.run, token_accept]

theorem starRun_token_head :
    ∀ (n : Nat) (r : Str), r.length ≤ n →
      (Regex.starRun (Regex.cls true [('>', '>'), ('^', '^'), ('/', '/')]).run n r).head? =
        some (r.dropWhile (fun c => !(['>', '^', '/'].contains c))) := by
  intro n
  induction n with
  | zero =>
    intro r hr
    have : r = [] := List.length_eq_zero.mp (Nat.le_zero.mp hr)
    subst this
    rfl
  | succ n ih =>
    intro r hr
    cases r with
    | nil => simp [Regex.starRun, Regex.run]
    | cons x xs =>
      simp only [Regex.starRun, run_token_cons]
      by_cases hx : (!(['>', '^', '/'].contains x)) = true
      · have hxs : xs.length ≤ n := by simpa using hr
        have ihx := ih xs hxs
        rw [if_pos hx]
        simp only [List.filter_cons, List.length_cons, Nat.lt_succ_self, decide_True, if_true,
          List.filter_nil, List.flatMap_cons, List.flatMap_nil, List.append_nil]
        rw [List.dropWhile_cons_of_pos (p := fun c => !(['>', '^', '/'].contains c)) hx]
        cases hs : Regex.starRun (Regex.cls true [('>', '>'), ('^', '^'), ('/', '/')]).run n xs with
        | nil => rw [hs] at ihx; cases ihx
        | cons a as => rw [hs] at ihx; exact ihx
      · rw [if_neg hx]
        simp only [List.filter_nil, List.flatMap_nil, List.nil_append, List.head?_cons]
        rw [List.dropWhile_cons_of_neg (p := fun c => !(['>', '^', '/'].contains c)) hx]

theorem run_token_plus_head (t : Str) :
    ((Regex.plus (Regex.cls true [('>', '>'), ('^', '^'), ('/', '/')])).run t).head? =
      if (t.takeWhile (fun c => !(['>', '^', '/'].contains c))).isEmpty then none
      else some (t.dropWhile (fun c => !(['>', '^', '/'].contains c))) := by
  cases t with
  | nil => rfl
  | cons x xs =>
    rw [Regex.run_plus, run_token_cons]
    by_cases hx : (!(['>', '^', '/'].contains x)) = true
    · rw [if_pos hx, List.takeWhile_cons_of_pos (p := fun c => !(['>', '^', '/'].contains c)) hx,
        List.dropWhile_cons_of_pos (p := fun c => !(['>', '^', '/'].contains c)) hx]
      simp only [List.flatMap_cons, List.flatMap_nil, List.append_nil, List.isEmpty_cons]
      exact starRun_token_head xs.length xs (Nat.le_refl _)
    · rw [if_neg hx, List.takeWhile_cons_of_neg (p := fun c => !(['>', '^', '/'].contains c)) hx]
      rfl

theorem playgroundUrl_run_start (p t : Str) (hp : p ∈ addressStarts) :
    playgroundUrl.expr.run (p ++ t) =
      (Regex.plus (Regex.cls true [('>', '>'), ('^', '^'), ('/', '/')])).run t := by
  simp only [addressStarts, List.mem_cons, List.mem_singleton, List.not_mem_nil, or_false] at hp
  rcases hp with rfl | rfl
  · simp [playgroundUrl, Regex.cat, Regex.str, Regex.run]
  · simp [playgroundUrl, Regex.cat, Regex.str, Regex.run]

theorem playgroundUrl_run_elsewhere (s : Str)
    (h : addressStarts.find? (fun p => p.isPrefixOf s) = none) :
    playgroundUrl.expr.run s = [] := by
  rw [List.eq_nil_iff_forall_not_mem]
  intro r hr
  have hexpr : playgroundUrl.expr = Regex.seq (Regex.str "http".toList)
      (Regex.seq (Regex.opt (Regex.lit 's')) (Regex.seq (Regex.str "://play.golang.org/p/".toList)
        (Regex.plus (Regex.cls true [('>', '>'), ('^', '^'), ('/', '/')])))) := rfl
  rw [hexpr, Regex.run_seq, List.mem_flatMap] at hr
  obtain ⟨r1, h1, hr⟩ := hr
  rw [Regex.run_seq, List.mem_flatMap] at hr
  obtain ⟨r2, h2, hr⟩ := hr
  rw [Regex.run_seq, List.mem_flatMap] at hr
  obtain ⟨r3, h3, -⟩ := hr
  rw [Regex.mem_run_str] at h1 h3
  rw [Regex.run_opt, List.mem_append, Regex.mem_run_lit, List.mem_singleton] at h2
  rw [List.find?_eq_none] at h
  rcases h2 with h2 | h2
  · subst h3 h2 h1
    exact absurd (by simp) (h "https://play.golang.org/p/".toList (by simp [addressStarts]))
  · subst h2 h3 h1
    exact absurd (by simp) (h "http://play.golang.org/p/".toList (by simp [addressStarts]))

theorem addressHere_split (excluded : List Char) (s a rest : Str)
    (h : addressHere excluded s = some (a, rest)) : s = a ++ rest ∧ a ≠ [] := by
  unfold addressHere at h
  split at h
  · cases h
  · rename_i p hp
    have hpre : p.isPrefixOf s = true := by
      have := List.find?_some hp
      simpa using this
    have hmem : p ∈ addressStarts := List.mem_of_find?_eq_some hp
    have hs : p ++ s.drop p.length = s := List.prefix_iff_eq_append.mp (List.isPrefixOf_iff_prefix.mp hpre)
    split at h
    · cases h
    · cases h
      refine ⟨?_, ?_⟩
      · rw [List.append_assoc, List.takeWhile_append_dropWhile, hs]
      · simp only [addressStarts, List.mem_cons, List.mem_singleton, List.not_mem_nil,
          or_false] at hmem
        rcases hmem with rfl | rfl <;> simp

theorem playgroundUrl_matchHere (s : Str) :
    playgroundUrl.matchHere s = (addressHere ['>', '^', '/'] s).map Prod.snd := by
  have hmode : playgroundUrl.longest = false := rfl
  unfold Regexp.matchHere addressHere
  rw [hmode, if_neg Bool.false_ne_true]
  cases hfind : addressStarts.find? (fun p => p.isPrefixOf s) with
  | none =>
    rw [playgroundUrl_run_elsewhere s hfind]
    rfl
  | some p =>
    have hpre : p.isPrefixOf s = true := by
      have := List.find?_some hfind
      simpa using this
    have hmem : p ∈ addressStarts := List.mem_of_find?_eq_some hfind
    have hs : p ++ s.drop p.length = s :=
      List.prefix_iff_eq_append.mp (List.isPrefixOf_iff_prefix.mp hpre)
    have hrun : playgroundUrl.expr.run s =
        (Regex.plus (Regex.cls true [('>', '>'), ('^', '^'), ('/', '/')])).run
          (s.drop p.length) := by
      rw [← playgroundUrl_run_start p (s.drop p.length) hmem, hs]
    rw [hrun, run_token_plus_head]
    simp only []
    split <;> rfl

theorem playgroundUrl_search (s : Str) :
    playgroundUrl.search s = addressLeftmost ['>', '^', '/'] s := by
  induction s with
  | nil => rfl
  | cons c cs ih =>
    simp only [Regexp.search, addressLeftmost]
    rw [playgroundUrl_matchHere]
    cases hh : addressHere ['>', '^', '/'] (c :: cs) with
    | none =>
      simp only [Option.map_none']
      exact ih
    | some found =>
      obtain ⟨a, rest⟩ := found
      obtain ⟨hs, -⟩ := addressHere_split _ _ a rest hh
      simp only [Option.map_some']
      rw [hs]
      simp

theorem addressScan_succ_cons (excluded : List Char) (k : Nat) (c : Char) (l : Str) :
    addressScan excluded (k + 1) (c :: l) = addressScan excluded k l := rfl

theorem addressScan_skip (excluded : List Char) (pre rest : Str) :
    addressScan excluded pre.length (pre ++ rest) = addressScan excluded 0 rest := by
  induction pre with
  | nil => rfl
  | cons c cs ih =>
    rw [List.cons_append, List.length_cons, addressScan_succ_cons]
    exact ih

theorem addressScan_leftmost (excluded : List Char) (s : Str) :
    addressScan excluded 0 s =
      match addressLeftmost excluded s with
      | none => []
      | some (a, rest) => a :: addressScan excluded 0 rest := by
  induction s with
  | nil => rfl
  | cons c cs ih =>
    simp only [addressScan, addressLeftmost]
    cases hh : addressHere excluded (c :: cs) with
    | none =>
      simp only []
      exact ih
    | some found =>
      obtain ⟨a, rest⟩ := found
      obtain ⟨hs, hne⟩ := addressHere_split _ _ a rest hh
      simp only []
      cases a with
      | nil => exact absurd rfl hne
      | cons x xs =>
        have hcs : cs = xs ++ rest := by
          have := congrArg List.tail hs
          simpa using this
        rw [hcs]
        simp only [List.length_cons, Nat.add_sub_cancel]
        rw [addressScan_skip]

theorem addressLeftmost_ne_nil (excluded : List Char) (s a rest : Str)
    (h : addressLeftmost excluded s = some (a, rest)) : a ≠ [] := by
  induction s with
  | nil => cases h
  | cons c cs ih =>
    simp only [addressLeftmost] at h
    cases hh : addressHere excluded (c :: cs) with
    | none =>
      rw [hh] at h
      exact ih h
    | some found =>
      rw [hh] at h
      cases h
      exact (addressHere_split _ _ a rest hh).2

theorem playgroundUrl_allMatches :
    ∀ (fuel : Nat) (adjacent : Bool) (s : Str), s.length < fuel →
      playgroundUrl.allMatches fuel adjacent s = addressScan ['>', '^', '/'] 0 s := by
  intro fuel
  induction fuel with
  | zero =>
    intro adjacent s h
    omega
  | succ n ih =>
    intro adjacent s h
    rw [addressScan_leftmost]
    simp only [Regexp.allMatches]
    have hsearch := playgroundUrl_search s
    cases hl : addressLeftmost ['>', '^', '/'] s with
    | none =>
      rw [hl] at hsearch
      rw [hsearch]
    | some found =>
      obtain ⟨a, rest⟩ := found
      rw [hl] at hsearch
      rw [hsearch]
      have hne := addressLeftmost_ne_nil _ _ a rest hl
      have hemp : a.isEmpty = false := by
        cases a with
        | nil => exact absurd rfl hne
        | cons x xs => rfl
      have hlen := (Regexp.search_length playgroundUrl s a rest hsearch).2 hemp
      simp only [hemp, Bool.false_eq_true, if_false]
      rw [ih true rest (by omega)]

theorem takeWhile_all {α : Type} (p : α → Bool) (l : List α) (h : ∀ x ∈ l, p x = true) :
    l.takeWhile p = l ∧ l.dropWhile p = [] := by
  induction l with
  | nil => exact ⟨rfl, rfl⟩
  | cons x xs ih =>
    have hx := h x (List.mem_cons_self _ _)
    obtain ⟨h1, h2⟩ := ih (fun y hy => h y (List.mem_cons_of_mem _ hy))
    rw [List.takeWhile_cons_of_pos hx, List.dropWhile_cons_of_pos hx, h1, h2]
    exact ⟨rfl, rfl⟩

theorem addressHere_whole (excluded : List Char) (p tok : Str) (hp : p ∈ addressStarts)
    (hne : tok ≠ []) (hall : ∀ c ∈ tok, c ∉ excluded) :
    addressHere excluded (p ++ tok) = some (p ++ tok, []) := by
  have hacc : ∀ c ∈ tok, (!excluded.contains c) = true := by
    intro c hc
    simpa using hall c hc
  obtain ⟨h1, h2⟩ := takeWhile_all (fun c => !excluded.contains c) tok hacc
  have hfind : addressStarts.find? (fun q => q.isPrefixOf (p ++ tok)) = some p := by
    simp only [addressStarts, List.mem_cons, List.mem_singleton, List.not_mem_nil,
      or_false] at hp
    rcases hp with rfl | rfl
    · simp [addressStarts, List.find?, List.isPrefixOf]
    · simp [addressStarts, List.find?, List.isPrefixOf]
  unfold addressHere
  rw [hfind]
  simp only [List.drop_left, h1, h2]
  cases tok with
  | nil => exact absurd rfl hne
  | cons x xs => rfl

/-! ## Claims -/

/-- C1, priority law: a message of a non-bot author whose text matches the
playground pattern and whose lower-cased text contains `pong` is handled by the
playground case alone.  The addresses extracted from the text are not empty; what
the handler does is the log line, the three printed lines and then the playground
loop over those addresses; the source of the first address is fetched; every fetch is the source
fetch of an extracted playground address (the summary endpoint is never asked);
every reply goes to the channel of the message and carries the result of
`playground` on an extracted address (the keyword case sends nothing); and when
no compile request panics there is one reply for each address.  The case table
of `unicode.ToLower` is assumed never to produce `>`, `^` or `/`. -/
theorem priority_law (w : World) (bot : SlackBot) (msg : SlackMessage)
    (ht : msg.Type_ = "message".toList) (hb : bot.IsBot msg.User = false)
    (hplay : playgroundUrl.MatchString msg.Text = true)
    (_hpong : Contains (msg.LowerText w.caseTable) "pong".toList = true)
    (htbl : ∀ c : Char, 0x7F < c.toNat →
      w.caseTable c ≠ '>' ∧ w.caseTable c ≠ '^' ∧ w.caseTable c ≠ '/') :
    playgroundUrl.FindAllString msg.Text ≠ [] ∧
    onMessage w bot msg =
      ⟨preamble bot msg ++
          (Prog.forEach (playgroundUrl.FindAllString msg.Text) (playgroundStep w bot msg)).trace,
        (Prog.forEach (playgroundUrl.FindAllString msg.Text) (playgroundStep w bot msg)).result⟩ ∧
    (∃ uri ∈ (playgroundUrl.FindAllString msg.Text).head?,
      uri ++ ".go".toList ∈ fetches (onMessage w bot msg).trace) ∧
    (∀ u ∈ fetches (onMessage w bot msg).trace,
      ∃ uri ∈ playgroundUrl.FindAllString msg.Text, u = uri ++ ".go".toList) ∧
    (∀ r ∈ replies (onMessage w bot msg).trace,
      r.1 = msg.Channel ∧
      ∃ uri ∈ playgroundUrl.FindAllString msg.Text, (playground w uri).result = some r.2) ∧
    ((onMessage w bot msg).result = some () →
      (replies (onMessage w bot msg).trace).length =
        (playgroundUrl.FindAllString msg.Text).length) := by
  have hne := Regexp.FindAllString_ne_nil playgroundUrl msg.Text hplay
  have hlow : playgroundUrl.MatchString (msg.LowerText w.caseTable) = true :=
    playgroundUrl_match_lower w.caseTable htbl msg.Text hplay
  have hroute : route w bot msg =
      Prog.forEach (playgroundUrl.FindAllString msg.Text) (playgroundStep w bot msg) := by
    simp only [route, hlow, if_true]
  have hon := onMessage_pass w bot msg ht hb
  rw [hroute] at hon
  obtain ⟨h1, h2, h3⟩ := forEach_playgroundStep w bot msg (playgroundUrl.FindAllString msg.Text)
  refine ⟨hne, hon, ?_, ?_, ?_, ?_⟩
  · rw [hon]
    show ∃ uri ∈ _, _ ∈ fetches (preamble bot msg ++ _)
    rw [fetches_preamble]
    cases hl : playgroundUrl.FindAllString msg.Text with
    | nil => exact absurd hl hne
    | cons uri rest => exact ⟨uri, rfl, forEach_playgroundStep_head w bot msg uri rest⟩
  · rw [hon]
    show ∀ u ∈ fetches (preamble bot msg ++ _), _
    rw [fetches_preamble]
    exact h1
  · rw [hon]
    show ∀ r ∈ replies (preamble bot msg ++ _), _
    rw [replies_preamble]
    exact h2
  · rw [hon]
    show _ = some () → (replies (preamble bot msg ++ _)).length = _
    rw [replies_preamble]
    exact fun h => (h3 h).1

/-- Witness of C1: user `U123` posts a playground address followed by `pong`. -/
theorem priority_law_witness :
    playgroundUrl.MatchString
      (sampleMessage "<https://play.golang.org/p/abcXYZ123> pong".toList).Text = true ∧
    Contains ((sampleMessage "<https://play.golang.org/p/abcXYZ123> pong".toList).LowerText
      sampleWorld.caseTable) "pong".toList = true ∧
    playgroundUrl.FindAllString
      (sampleMessage "<https://play.golang.org/p/abcXYZ123> pong".toList).Text ≠ [] ∧
    (∀ r ∈ replies (onMessage sampleWorld sampleBot
        (sampleMessage "<https://play.golang.org/p/abcXYZ123> pong".toList)).trace,
      r.1 = "C1".toList ∧
      ∃ uri ∈ playgroundUrl.FindAllString
          (sampleMessage "<https://play.golang.org/p/abcXYZ123> pong".toList).Text,
        (playground sampleWorld uri).result = some r.2) :=
  have h := priority_law sampleWorld sampleBot
    (sampleMessage "<https://play.golang.org/p/abcXYZ123> pong".toList) rfl (by decide)
    (by decide) (by decide)
    sampleWorld_caseTable
  ⟨by decide, by decide, h.1, h.2.2.2.2.1⟩


/-- C2, filter law: `IsBot` holds exactly of the bot's own id and of the empty
id; an event reaches the matchers (the three lines `Author`, `Channel`, `Text`
are printed and `route` runs) if and only if its type is `message` and `IsBot`
of its author is false; every other event, so one of the bot itself, one with an
empty author or one of another type, only leaves the log line: no fetch, no
compile request, no reply, whatever its text. -/
theorem filter_law (w : World) (bot : SlackBot) (msg : SlackMessage) :
    (∀ id, bot.IsBot id = true ↔ (id = bot.info.BotInfo.Id ∨ id = [])) ∧
    (onMessage w bot msg =
        ⟨preamble bot msg ++ (route w bot msg).trace, (route w bot msg).result⟩ ↔
      (msg.Type_ = "message".toList ∧ bot.IsBot msg.User = false)) ∧
    (¬ (msg.Type_ = "message".toList ∧ bot.IsBot msg.User = false) →
      onMessage w bot msg = ⟨[.logMessage msg], some ()⟩) ∧
    ((msg.Type_ ≠ "message".toList ∨ msg.User = bot.info.BotInfo.Id ∨ msg.User = []) →
      fetches (onMessage w bot msg).trace = [] ∧ compiles (onMessage w bot msg).trace = [] ∧
      replies (onMessage w bot msg).trace = []) := by
  refine ⟨IsBot_iff bot, ⟨?_, fun h => onMessage_pass w bot msg h.1 h.2⟩,
    onMessage_drop w bot msg, ?_⟩
  · intro h
    by_contra hc
    rw [onMessage_drop w bot msg hc] at h
    have hlen := congrArg (fun p => p.trace.length) h
    simp [preamble] at hlen
  · intro h
    have hc : ¬ (msg.Type_ = "message".toList ∧ bot.IsBot msg.User = false) := by
      rintro ⟨ht, hb⟩
      rcases h with h | h
      · exact h ht
      · rw [(IsBot_iff bot msg.User).mpr h] at hb
        cases hb
    rw [onMessage_drop w bot msg hc]
    exact ⟨rfl, rfl, rfl⟩

/-- Witness of C2 on three events of `sampleBot`: one of the bot itself, one with
an empty author and one of type `hello`, each with the text `pong`. -/
theorem filter_law_witness :
    replies (onMessage sampleWorld sampleBot
      ⟨"message".toList, 0, [], "C1".toList, "B0".toList, "pong".toList⟩).trace = [] ∧
    replies (onMessage sampleWorld sampleBot
      ⟨"message".toList, 0, [], "C1".toList, [], "pong".toList⟩).trace = [] ∧
    replies (onMessage sampleWorld sampleBot
      ⟨"hello".toList, 0, [], "C1".toList, "U123".toList, "pong".toList⟩).trace = [] :=
  ⟨((filter_law sampleWorld sampleBot _).2.2.2 (Or.inr (Or.inl rfl))).2.2,
   ((filter_law sampleWorld sampleBot _).2.2.2 (Or.inr (Or.inr rfl))).2.2,
   ((filter_law sampleWorld sampleBot _).2.2.2 (Or.inl (by decide))).2.2⟩

/-- C6, identifier cache: on the bot that `NewSlackBot` returns, when the ids of
the roster are unique, `UserIdToName` gives the name of the roster user with
that id and the empty string when no user has it, and `ChannelIdToName` does the
same for channels; both are total functions. -/
theorem identifier_cache_total (w : World) (token : Str) (sb : SlackBot)
    (hboot : NewSlackBot w token = some sb)
    (hu : (sb.info.Users.map User.ID).Nodup)
    (hc : (sb.info.Channels.map Channel.ID).Nodup) :
    (∀ u ∈ sb.info.Users, sb.UserIdToName u.ID = u.Name) ∧
    (∀ id, (∀ u ∈ sb.info.Users, u.ID ≠ id) → sb.UserIdToName id = []) ∧
    (∀ c ∈ sb.info.Channels, sb.ChannelIdToName c.ID = c.Name) ∧
    (∀ id, (∀ c ∈ sb.info.Channels, c.ID ≠ id) → sb.ChannelIdToName id = []) := by
  have hfill := NewSlackBot_eq_fill w token sb hboot
  refine ⟨?_, ?_, ?_, ?_⟩
  · intro u hmem
    rw [hfill]
    exact StrMap.get_foldl_present User.ID User.Name _ [] hu u hmem
  · intro id hid
    rw [hfill]
    exact StrMap.get_foldl_absent User.ID User.Name _ [] id hid
  · intro c hmem
    rw [hfill]
    exact StrMap.get_foldl_present Channel.ID Channel.Name _ [] hc c hmem
  · intro id hid
    rw [hfill]
    exact StrMap.get_foldl_absent Channel.ID Channel.Name _ [] id hid

/-- Witness of C6: the bot built in `sampleWorld` from the token `tok`. -/
theorem identifier_cache_total_witness :
    NewSlackBot sampleWorld "tok".toList = some sampleBot ∧
    (sampleBot.info.Users.map User.ID).Nodup ∧
    (sampleBot.info.Channels.map Channel.ID).Nodup ∧
    sampleBot.UserIdToName "U123".toList = "ann".toList ∧
    sampleBot.UserIdToName "U999".toList = [] ∧
    sampleBot.ChannelIdToName "C1".toList = "general".toList ∧
    sampleBot.ChannelIdToName "C9".toList = [] :=
  have h := identifier_cache_total sampleWorld "tok".toList sampleBot rfl (by decide) (by decide)
  ⟨rfl, by decide, by decide,
   h.1 ⟨"U123".toList, "ann".toList, sampleProfile⟩ (by decide),
   h.2.1 "U999".toList (by decide),
   h.2.2.1 ⟨"C1".toList, "general".toList, ["U123".toList]⟩ (by decide),
   h.2.2.2 "C9".toList (by decide)⟩

/-- C5, truncation law: when the source is fetched and the compile result
decodes, the reply of `playground` is the source block, then the errors block
and the result block when they are not empty; the body of the source block is
the source itself when it has at most 1024 code points and otherwise its first
1024 code points followed by a newline and three dots.  The test is on the
number of code points (`List.length`), whatever the number of bytes. -/
theorem truncation_law (w : World) (uri src bytes : Str) (compileRes : compileResult)
    (hget : w.get (uri ++ ".go".toList) = .body src)
    (hpost : w.postForm compileUrl [("body".toList, src)] = .body bytes)
    (hdec : w.decodeCompile bytes = some compileRes) :
    ∃ body : Str,
      (playground w uri).result = some
        ("Source:\n```".toList ++ body ++ "```".toList ++
          (if compileRes.Errors ≠ [] then
            "\n Errors:\n```".toList ++ compileRes.Errors ++ "```".toList else []) ++
          (if compileRes.Output ≠ [] then
            "\nResult:```".toList ++ compileRes.Output ++ "```".toList else [])) ∧
      (src.length ≤ 1024 → body = src) ∧
      (1024 < src.length →
        body = src.take 1024 ++ "\n...".toList ∧ (src.take 1024).length = 1024) := by
  refine ⟨clipSource src, ?_, ?_, ?_⟩
  · simp only [playground, hget, hpost, hdec, bind, Prog.andThen, Prog.emit, pure, Prog.ret,
      formatPlayground]
    by_cases he : compileRes.Errors = [] <;> by_cases ho : compileRes.Output = [] <;>
      simp [he, ho]
  · intro h
    simp only [clipSource, runeLen]
    rw [if_neg (by omega)]
  · intro h
    simp only [clipSource, runeLen]
    rw [if_pos (by omega)]
    exact ⟨rfl, by rw [List.length_take]; omega⟩

set_option maxRecDepth 100000 in
/-- Witness of C5 in `clipWorld`: the source of 1100 code points is cut to its
first 1024 and marked; the source of 600 code points, 1200 bytes long, is shown
whole. -/
theorem truncation_law_witness :
    clipWorld.get ("long".toList ++ ".go".toList) = .body (List.replicate 1100 'я') ∧
    (playground clipWorld "long".toList).result = some
      ("Source:\n```".toList ++ (List.replicate 1024 'я' ++ "\n...".toList) ++ "```".toList ++
        "\nResult:```hi```".toList) ∧
    byteLen (List.replicate 600 'я') = 1200 ∧
    (playground clipWorld "short".toList).result = some
      ("Source:\n```".toList ++ List.replicate 600 'я' ++ "```".toList ++
        "\nResult:```hi```".toList) := by
  obtain ⟨b1, h1, -, c1⟩ := truncation_law clipWorld "long".toList (List.replicate 1100 'я')
    "\x7b\x7d".toList ⟨[], "hi".toList⟩ rfl rfl rfl
  obtain ⟨b2, h2, c2, -⟩ := truncation_law clipWorld "short".toList (List.replicate 600 'я')
    "\x7b\x7d".toList ⟨[], "hi".toList⟩ rfl rfl rfl
  have e1 := (c1 (by rw [List.length_replicate]; decide)).1
  have e2 := c2 (by rw [List.length_replicate]; decide)
  subst e1 e2
  refine ⟨rfl, ?_, ?_, ?_⟩
  · rw [h1, List.take_replicate]
    rfl
  · rw [byteLen, List.map_replicate, List.sum_replicate]
    rfl
  · rw [h2]
    rfl

/-- C8, keyword reply: a message of a non-bot author whose lower-cased text
contains `pong` and matches neither URL pattern gets exactly one reply, in the
channel of the message, with the text `@` + `UserIdToName` of the author +
`: ping`; nothing is fetched or compiled and the handler returns. -/
theorem keyword_reply (w : World) (bot : SlackBot) (msg : SlackMessage)
    (ht : msg.Type_ = "message".toList) (hb : bot.IsBot msg.User = false)
    (hpong : Contains (msg.LowerText w.caseTable) "pong".toList = true)
    (hp : playgroundUrl.MatchString (msg.LowerText w.caseTable) = false)
    (hw : wikiUrl.MatchString (msg.LowerText w.caseTable) = false) :
    replies (onMessage w bot msg).trace =
      [(msg.Channel, "@".toList ++ bot.UserIdToName msg.User ++ ": ping".toList)] ∧
    fetches (onMessage w bot msg).trace = [] ∧
    compiles (onMessage w bot msg).trace = [] ∧
    (onMessage w bot msg).result = some () := by
  have hr : route w bot msg = bot.SendMessage msg.Channel
      ("@".toList ++ bot.UserIdToName msg.User ++ ": ping".toList) := by
    simp only [route, hp, hw, hpong, if_true, Bool.false_eq_true, if_false]
  rw [onMessage_pass w bot msg ht hb, hr]
  refine ⟨?_, rfl, rfl, rfl⟩
  rw [replies_preamble, replies_SendMessage]

/-- Witness of C8: the text `pong!` from user `U123`, whose name is `ann`. -/
theorem keyword_reply_witness :
    (sampleMessage "pong!".toList).Type_ = "message".toList ∧
    sampleBot.IsBot (sampleMessage "pong!".toList).User = false ∧
    Contains ((sampleMessage "pong!".toList).LowerText sampleWorld.caseTable) "pong".toList = true ∧
    playgroundUrl.MatchString ((sampleMessage "pong!".toList).LowerText sampleWorld.caseTable)
      = false ∧
    wikiUrl.MatchString ((sampleMessage "pong!".toList).LowerText sampleWorld.caseTable) = false ∧
    replies (onMessage sampleWorld sampleBot (sampleMessage "pong!".toList)).trace =
      [("C1".toList, "@ann: ping".toList)] :=
  ⟨rfl, by decide, by decide, by decide, by decide,
   (keyword_reply sampleWorld sampleBot (sampleMessage "pong!".toList) rfl (by decide)
     (by decide) (by decide) (by decide)).1⟩

/-- C3 fails as stated, on two events.  On the text `HTTPS://PLAY.GOLANG.ORG/P/ABC`
the lower-cased text matches the playground pattern once and the playground case
is selected, but the handler runs zero times: nothing is fetched, no reply is sent.
On the text `https://play.golang.org/p/abc`, when the compile service cannot be
reached, the one match is fetched, the handler panics and no reply is sent. -/
theorem playground_reply_count_fails :
    (playgroundUrl.FindAllString
        ((sampleMessage "HTTPS://PLAY.GOLANG.ORG/P/ABC".toList).LowerText sampleWorld.caseTable)
        = ["https://play.golang.org/p/abc".toList] ∧
      fetches (onMessage sampleWorld sampleBot
        (sampleMessage "HTTPS://PLAY.GOLANG.ORG/P/ABC".toList)).trace = [] ∧
      replies (onMessage sampleWorld sampleBot
        (sampleMessage "HTTPS://PLAY.GOLANG.ORG/P/ABC".toList)).trace = []) ∧
    (playgroundUrl.FindAllString
        ((sampleMessage "https://play.golang.org/p/abc".toList).LowerText downWorld.caseTable)
        = ["https://play.golang.org/p/abc".toList] ∧
      fetches (onMessage downWorld sampleBot
        (sampleMessage "https://play.golang.org/p/abc".toList)).trace
        = ["https://play.golang.org/p/abc.go".toList] ∧
      replies (onMessage downWorld sampleBot
        (sampleMessage "https://play.golang.org/p/abc".toList)).trace = [] ∧
      (onMessage downWorld sampleBot
        (sampleMessage "https://play.golang.org/p/abc".toList)).result = none) := by
  decide

/-- C3 as amended: for a message of a non-bot author whose text as written matches
the playground pattern, the matches of the pattern in the text as written are not
empty and the handler takes them in order: it fetches the source of each and sends
one reply with the result of `playground` to the channel of the message, up to
the first address whose compile request panics, which is fetched and ends the
run.  When nothing panics there is one reply for each match, so at least one.
The case table of `unicode.ToLower` is assumed never to produce `>`, `^` or `/`. -/
theorem playground_reply_per_match (w : World) (bot : SlackBot) (msg : SlackMessage)
    (ht : msg.Type_ = "message".toList) (hb : bot.IsBot msg.User = false)
    (hplay : playgroundUrl.MatchString msg.Text = true)
    (htbl : ∀ c : Char, 0x7F < c.toNat →
      w.caseTable c ≠ '>' ∧ w.caseTable c ≠ '^' ∧ w.caseTable c ≠ '/') :
    playgroundUrl.FindAllString msg.Text ≠ [] ∧
    (∃ done rest : List Str, playgroundUrl.FindAllString msg.Text = done ++ rest ∧
      replies (onMessage w bot msg).trace =
        done.map (fun uri => (msg.Channel, ((playground w uri).result).getD [])) ∧
      fetches (onMessage w bot msg).trace =
        (done ++ rest.head?.toList).map (fun uri => uri ++ ".go".toList) ∧
      (∀ uri ∈ done, (playground w uri).result ≠ none) ∧
      ((rest = [] ∧ (onMessage w bot msg).result = some ()) ∨
        (∃ uri tail, rest = uri :: tail ∧ (playground w uri).result = none ∧
          (onMessage w bot msg).result = none))) ∧
    ((onMessage w bot msg).result = some () →
      (replies (onMessage w bot msg).trace).length =
        (playgroundUrl.FindAllString msg.Text).length ∧
      1 ≤ (replies (onMessage w bot msg).trace).length) := by
  have hne := Regexp.FindAllString_ne_nil playgroundUrl msg.Text hplay
  have hlow : playgroundUrl.MatchString (msg.LowerText w.caseTable) = true :=
    playgroundUrl_match_lower w.caseTable htbl msg.Text hplay
  have hroute : route w bot msg =
      Prog.forEach (playgroundUrl.FindAllString msg.Text) (playgroundStep w bot msg) := by
    simp only [route, hlow, if_true]
  have hon := onMessage_pass w bot msg ht hb
  rw [hroute] at hon
  have htr : (onMessage w bot msg).trace = preamble bot msg ++
      (Prog.forEach (playgroundUrl.FindAllString msg.Text) (playgroundStep w bot msg)).trace := by
    rw [hon]
  have hres : (onMessage w bot msg).result =
      (Prog.forEach (playgroundUrl.FindAllString msg.Text) (playgroundStep w bot msg)).result := by
    rw [hon]
  rw [htr, hres, replies_preamble, fetches_preamble]
  obtain ⟨done, rest, hsplit, hrep, hfet, hdone, hend⟩ :=
    forEach_playgroundStep_split w bot msg (playgroundUrl.FindAllString msg.Text)
  refine ⟨hne, ⟨done, rest, hsplit, hrep, hfet, hdone, hend⟩, ?_⟩
  intro hok
  have hlen := ((forEach_playgroundStep w bot msg (playgroundUrl.FindAllString msg.Text)).2.2
    hok).1
  refine ⟨hlen, ?_⟩
  rw [hlen]
  exact List.length_pos.mpr hne

/-- Witness of C3 as amended: the scenario text `check out
https://play.golang.org/p/abcXYZ123` gets one reply, with the source and the
output of the program. -/
theorem playground_reply_per_match_witness :
    playgroundUrl.MatchString
      (sampleMessage "check out https://play.golang.org/p/abcXYZ123".toList).Text = true ∧
    playgroundUrl.FindAllString
      (sampleMessage "check out https://play.golang.org/p/abcXYZ123".toList).Text
      = ["https://play.golang.org/p/abcXYZ123".toList] ∧
    replies (onMessage sampleWorld sampleBot
      (sampleMessage "check out https://play.golang.org/p/abcXYZ123".toList)).trace
      = [("C1".toList,
          "Source:\n```body of https://play.golang.org/p/abcXYZ123.go```\nResult:```hi```".toList)] ∧
    1 ≤ (replies (onMessage sampleWorld sampleBot
      (sampleMessage "check out https://play.golang.org/p/abcXYZ123".toList)).trace).length :=
  ⟨by decide, by decide, by decide,
   ((playground_reply_per_match sampleWorld sampleBot
      (sampleMessage "check out https://play.golang.org/p/abcXYZ123".toList) rfl (by decide)
      (by decide) sampleWorld_caseTable).2.2 (by decide)).2⟩

/-- C4 at the text `see https://en.wikipedia.org/wiki/Go_(programming_language)`:
the wiki case is selected and the language is `en`, but the address is taken from
the lower-cased text, so the summary endpoint is asked for
`go_(programming_language)`, not for the article as written. -/
theorem wiki_article_lowercased :
    fetches (onMessage sampleWorld sampleBot
      (sampleMessage "see https://en.wikipedia.org/wiki/Go_(programming_language)".toList)).trace
      = [summaryUrl "en".toList "go_(programming_language)".toList] ∧
    summaryUrl "en".toList "go_(programming_language)".toList ≠
      summaryUrl "en".toList "Go_(programming_language)".toList := by
  decide

/-- C7 on a summary answer of two pages of which the second carries a title:
when the page without a title is visited first `wiki` returns the empty string,
although in the other order it returns the formatted page. -/
theorem wiki_first_page_only :
    sampleWorld.decodePages
      ("body of ".toList ++ summaryUrl "en".toList "go".toList) = [pageUntitled, pageTitled] ∧
    pageTitled.lookup "title".toList = some (.str "Go".toList) ∧
    (wiki sampleWorld "https://en.wikipedia.org/wiki/go".toList).result = some [] ∧
    wikiPages [pageUntitled, pageTitled] = [] ∧
    wikiPages [pageTitled, pageUntitled] = "*Go*\n```E1```".toList := by
  decide

/-- C9 fails as stated, at the text `https://play.golang.org/p/a^b`: the router
extracts `https://play.golang.org/p/a`, the caret ends the token, while the
reading of the claim, with only `>` and `/` excluded from the token, gives the
whole text. -/
theorem playground_token_stops_at_caret :
    playgroundUrl.FindAllString "https://play.golang.org/p/a^b".toList =
      ["https://play.golang.org/p/a".toList] ∧
    playgroundAddresses ['>', '/'] "https://play.golang.org/p/a^b".toList =
      ["https://play.golang.org/p/a^b".toList] := by
  decide

/-- C9 as amended: the strings `FindAllString` extracts with the playground pattern
are exactly the leftmost non-overlapping substrings made of `https://` or
`http://`, then `play.golang.org/p/`, then a longest non-empty run of code points
none of which is `>`, `^` or `/`; every other code point, the newline included,
is accepted inside the token: an address start followed by a non-empty run of
such code points is extracted whole. -/
theorem playground_addresses (s : Str) :
    playgroundUrl.FindAllString s = playgroundAddresses ['>', '^', '/'] s ∧
    (∀ p ∈ addressStarts, ∀ tok : Str, tok ≠ [] → (∀ c ∈ tok, c ∉ ['>', '^', '/']) →
      playgroundUrl.FindAllString (p ++ tok) = [p ++ tok]) := by
  have hmain : ∀ t : Str, playgroundUrl.FindAllString t = playgroundAddresses ['>', '^', '/'] t :=
    fun t => playgroundUrl_allMatches (t.length + 1) false t (Nat.lt_succ_self _)
  refine ⟨hmain s, ?_⟩
  intro p hp tok hne hall
  rw [hmain, playgroundAddresses, addressScan_leftmost]
  have hhere := addressHere_whole ['>', '^', '/'] p tok hp hne hall
  have hleft : addressLeftmost ['>', '^', '/'] (p ++ tok) = some (p ++ tok, []) := by
    cases hpt : p ++ tok with
    | nil =>
      rw [hpt] at hhere
      cases hhere
    | cons x xs =>
      rw [hpt] at hhere
      simp only [addressLeftmost, hhere]
  rw [hleft]
  rfl

/-- Witness of C9 as amended: a token with a space, a newline and a `<` is taken
whole. -/
theorem playground_addresses_witness :
    "http://play.golang.org/p/".toList ∈ addressStarts ∧
    playgroundUrl.FindAllString ("http://play.golang.org/p/".toList ++ "a b\n<c".toList) =
      ["http://play.golang.org/p/".toList ++ "a b\n<c".toList] :=
  ⟨by decide,
   (playground_addresses []).2 "http://play.golang.org/p/".toList (by decide)
     "a b\n<c".toList (by decide) (by decide)⟩

/-- C10 at the text `https://.wikipedia.org/wiki/x`: the router extracts the whole
text with its wiki pattern, the language expression of `wiki` finds nothing in
it, the slice `lang[:len(lang)-5]` is out of range and the handler panics. -/
theorem wiki_panics_on_empty_language :
    wikiUrl.FindAllString
      ((sampleMessage "https://.wikipedia.org/wiki/x".toList).LowerText sampleWorld.caseTable)
      = ["https://.wikipedia.org/wiki/x".toList] ∧
    langRex.FindString "https://.wikipedia.org/wiki/x".toList = [] ∧
    sliceTo [] ((byteLen [] : Int) - 5) = none ∧
    (wiki sampleWorld "https://.wikipedia.org/wiki/x".toList).result = none ∧
    (onMessage sampleWorld sampleBot
      (sampleMessage "https://.wikipedia.org/wiki/x".toList)).result = none ∧
    replies (onMessage sampleWorld sampleBot
      (sampleMessage "https://.wikipedia.org/wiki/x".toList)).trace = [] := by
  decide


end HappyBot
